import Mathlib

/-! gelfFormatter: a model of `gelf.go` and its verified properties

The Go package turns one logrus entry into one line of GELF 1.1 JSON.  This
file embeds the functions of `gelf.go` as Lean definitions and proves
properties of them.

Modelling conventions.

* A Go `string` and a Go `[]byte` are both a list of bytes (`Bytes`); a byte
  is a natural number below 256.  Indices and lengths count bytes, as in Go.
* A Go `map[string]interface{}` (`log.Fields`) is an association list whose
  keys are pairwise distinct (`WellFormed`).  Assigning `m[k] = v` replaces the
  value in place when the key is present and adds an entry otherwise.
* A dynamic value (`interface{}`) is a `Value`; the only thing the package
  asks of one is whether it implements `error`, and then its `Error()` text.
* `encoding/json` is split in two.  The layout of an object (which members,
  in which order, braces, commas, colons) is modelled concretely; the text of
  a scalar (`Encoder`) is a parameter, so every theorem holds for every
  scalar encoding.
* The call stack seen by `runtime.Caller` is a list of frames.
* A `bytes.Buffer` is the list of bytes written so far; `Write` never fails.
* A key of the output is taken as a JSON parser reads it (`jsonKey`): the
  encoder writes U+FFFD for each byte of a Go string that is not part of a
  well-formed UTF-8 rune, so two Go strings can be read as one key.
* The pool `bufPool` is explicit state (`PoolState`): the buffers allocated
  so far, each with its content, and the buffers that are in the pool.
  `Format` is the function of its arguments; `FormatPooled` is the same call
  with the buffer it takes from and puts back into the pool.
-/

namespace GelfFormatter

/-! ## Strings and bytes -/

/-- A Go string or byte slice: its bytes, in order. -/
abbrev Bytes := List Nat

/-- The bytes of an ASCII literal. -/
def ascii (s : String) : Bytes := s.toList.map Char.toNat

/-- The table `asciiSpace` of package strings: tab, line feed, vertical tab,
form feed, carriage return, space. -/
def asciiSpace (b : Nat) : Bool :=
  b == 9 || b == 10 || b == 11 || b == 12 || b == 13 || b == 32

/-- The two-byte UTF-8 sequences that decode to a rune with
`unicode.IsSpace`: U+0085 and U+00A0. -/
def isSpace2 (a b : Nat) : Bool := a == 0xC2 && (b == 0x85 || b == 0xA0)

/-- The three-byte UTF-8 sequences that decode to a rune with
`unicode.IsSpace`: U+1680, U+2000..U+200A, U+2028, U+2029, U+202F, U+205F,
U+3000. -/
def isSpace3 (a b c : Nat) : Bool :=
  (a == 0xE1 && b == 0x9A && c == 0x80) ||
  (a == 0xE2 && b == 0x80 &&
    ((decide (0x80 ≤ c) && decide (c ≤ 0x8A)) || c == 0xA8 || c == 0xA9 || c == 0xAF)) ||
  (a == 0xE2 && b == 0x81 && c == 0x9F) ||
  (a == 0xE3 && b == 0x80 && c == 0x80)

/-- The function `strings.TrimLeftFunc(s, unicode.IsSpace)`: drop leading runes
while they are white space.  A byte sequence that is not the encoding of a
white-space rune (an invalid byte included, which decodes to U+FFFD) stops
the scan. -/
def TrimLeftSpace : Bytes → Bytes
  | [] => []
  | [a] => if asciiSpace a then [] else [a]
  | [a, b] =>
    if asciiSpace a then TrimLeftSpace [b]
    else if isSpace2 a b then [] else [a, b]
  | a :: b :: c :: rest =>
    if asciiSpace a then TrimLeftSpace (b :: c :: rest)
    else if isSpace2 a b then TrimLeftSpace (c :: rest)
    else if isSpace3 a b c then TrimLeftSpace rest
    else a :: b :: c :: rest

/-- The scan of `strings.TrimRightFunc(s, unicode.IsSpace)` on the reversed
string: the argument lists the bytes last byte first. -/
def dropSpaceRev : Bytes → Bytes
  | [] => []
  | [c] => if asciiSpace c then [] else [c]
  | [c, b] =>
    if asciiSpace c then dropSpaceRev [b]
    else if isSpace2 b c then [] else [c, b]
  | c :: b :: a :: rest =>
    if asciiSpace c then dropSpaceRev (b :: a :: rest)
    else if isSpace2 b c then dropSpaceRev (a :: rest)
    else if isSpace3 a b c then dropSpaceRev rest
    else c :: b :: a :: rest

/-- The function `strings.TrimRightFunc(s, unicode.IsSpace)`. -/
def TrimRightSpace (s : Bytes) : Bytes := (dropSpaceRev s.reverse).reverse

/-- The function `strings.TrimSpace`: the string without its leading and
trailing white space, as defined by Unicode. -/
def TrimSpace (s : Bytes) : Bytes := TrimRightSpace (TrimLeftSpace s)

/-- The function `strings.IndexByte`, which `strings.IndexRune` calls for a
rune below 0x80: the index of the first byte equal to `c`, or -1. -/
def IndexByte : Bytes → Nat → Int
  | [], _ => -1
  | a :: rest, c =>
    if a = c then 0
    else if IndexByte rest c < 0 then -1 else IndexByte rest c + 1

/-- The call `strings.IndexRune(s, '\n')`. -/
def IndexRune (s : Bytes) (r : Nat) : Int := IndexByte s r

/-- Whether `p` is a leading part of `s` (`strings.HasPrefix`). -/
def startsWith : Bytes → Bytes → Bool
  | _, [] => true
  | [], _ :: _ => false
  | a :: s, b :: p => a == b && startsWith s p

/-- The function `strings.Contains`: whether `substr` occurs in `s`. -/
def Contains : Bytes → Bytes → Bool
  | [], substr => startsWith [] substr
  | a :: s, substr => startsWith (a :: s) substr || Contains s substr

/-- A Go slice expression `b[lo:hi]`: `none` stands for the run-time panic
"slice bounds out of range". -/
def slice (b : Bytes) (lo hi : Int) : Option Bytes :=
  if 0 ≤ lo ∧ lo ≤ hi ∧ hi ≤ (b.length : Int) then
    some ((b.drop lo.toNat).take (hi - lo).toNat)
  else none

/-- Byte-wise lexicographic order on strings, the order in which
`encoding/json` emits the keys of a map. -/
def bytesLE : Bytes → Bytes → Bool
  | [], _ => true
  | _ :: _, [] => false
  | a :: s, b :: t => decide (a < b) || (a == b && bytesLE s t)

/-! ## Dynamic values and field maps -/

/-- A dynamic Go value (`interface{}`).  `err d` is a value whose type
implements `error` and whose `Error()` method returns `d`; every other
constructor is a value that does not implement `error`. -/
inductive Value where
  | str (s : Bytes)
  | int (n : Int)
  | bool (b : Bool)
  | null
  | err (description : Bytes)
  | other (id : Nat)
  deriving DecidableEq

/-- The type `log.Fields`, a `map[string]interface{}`. -/
abbrev Fields := List (Bytes × Value)

/-- The keys of a map. -/
def mapKeys (f : Fields) : List Bytes := f.map Prod.fst

/-- A map has each key once. -/
def WellFormed (f : Fields) : Prop := (mapKeys f).Nodup

instance (f : Fields) : Decidable (WellFormed f) := by
  unfold WellFormed; infer_instance

/-- The lookup `f[k]`. -/
def mapGet : Fields → Bytes → Option Value
  | [], _ => none
  | (k', v) :: rest, k => if k' = k then some v else mapGet rest k

/-- The assignment `f[k] = v`. -/
def mapSet : Fields → Bytes → Value → Fields
  | [], k, v => [(k, v)]
  | (k', v') :: rest, k, v =>
    if k' = k then (k, v) :: rest else (k', v') :: mapSet rest k v

/-- One step of an insertion sort by key. -/
def insertByKey (e : Bytes × Value) : Fields → Fields
  | [] => [e]
  | x :: rest => if bytesLE e.1 x.1 then e :: x :: rest else x :: insertByKey e rest

/-- The entries of a map in the order `encoding/json` writes them: sorted by
key. -/
def sortByKey : Fields → Fields
  | [] => []
  | e :: rest => insertByKey e (sortByKey rest)

/-! ## logrus levels -/

/-- The type `logrus.Level`, a `uint32`. -/
abbrev Level := Nat

def PanicLevel : Level := 0
def FatalLevel : Level := 1
def ErrorLevel : Level := 2
def WarnLevel : Level := 3
def InfoLevel : Level := 4
def DebugLevel : Level := 5
def TraceLevel : Level := 6

/-- The method `logrus.Level.String`. -/
def LevelString (l : Level) : Bytes :=
  if l = TraceLevel then ascii "trace"
  else if l = DebugLevel then ascii "debug"
  else if l = InfoLevel then ascii "info"
  else if l = WarnLevel then ascii "warning"
  else if l = ErrorLevel then ascii "error"
  else if l = FatalLevel then ascii "fatal"
  else if l = PanicLevel then ascii "panic"
  else ascii "unknown"

/-! ## Syslog severity levels -/

def LOG_EMERG : Int := 0
def LOG_ALERT : Int := 1
def LOG_CRIT : Int := 2
def LOG_ERR : Int := 3
def LOG_WARNING : Int := 4
def LOG_NOTICE : Int := 5
def LOG_INFO : Int := 6
def LOG_DEBUG : Int := 7

/-- The function `getLevel`: a switch over the logrus level; a level that no
case names leaves the zero value of `int32`. -/
def getLevel (l : Level) : Int :=
  if l = PanicLevel then LOG_EMERG
  else if l = FatalLevel then LOG_CRIT
  else if l = ErrorLevel then LOG_ERR
  else if l = WarnLevel then LOG_WARNING
  else if l = InfoLevel then LOG_INFO
  else if l = DebugLevel then LOG_DEBUG
  else 0

/-! ## The JSON encoder -/

/-- An error returned by `json.Marshal` (an unsupported type or value). -/
structure EncodeError where
  code : Nat
  deriving DecidableEq

/-- The scalar encodings of `encoding/json`: the text of a string literal
(quotes included), of a `float64` holding a whole number of seconds, of an
`int32`, and of a dynamic value.  Encoding a float or a dynamic value may
fail. -/
structure Encoder where
  string : Bytes → Bytes
  float64 : Int → Except EncodeError Bytes
  int32 : Int → Bytes
  value : Value → Except EncodeError Bytes

/-- One member of a JSON object: its key, and its text `"key":value` as
written into the object. -/
structure Member where
  key : Bytes
  text : Bytes
  deriving DecidableEq

/-- The member that `encoding/json` writes for a struct field: the tag name
between double quotes, a colon, the value. -/
def fieldMember (name value : Bytes) : Member :=
  ⟨name, [34] ++ name ++ [34, 58] ++ value⟩

/-- The text of a JSON object: `{`, the members separated by commas, `}`. -/
def renderObject (ms : List Member) : Bytes :=
  [123] ++ List.intercalate [44] (ms.map Member.text) ++ [125]

/-! ## The GELF record -/

/-- The struct `Message`.  `TimeUnix` is a `float64` that holds a whole
number of seconds; `Level` is an `int32`. -/
structure Message where
  Version : Bytes
  Host : Bytes
  Short : Bytes
  Full : Bytes
  TimeUnix : Int
  Level : Int
  Facility : Bytes
  Extra : Fields
  RawExtra : Bytes
  deriving DecidableEq

/-- The members `json.Marshal` writes for a `Message`, in the order of the
struct fields: `full_message`, `level` and `_facility` carry `omitempty`,
`Extra` and `RawExtra` carry the tag `-`.  `ts` is the text of the
timestamp. -/
def messageMembers (enc : Encoder) (m : Message) (ts : Bytes) : List Member :=
  [fieldMember (ascii "version") (enc.string m.Version),
   fieldMember (ascii "host") (enc.string m.Host),
   fieldMember (ascii "short_message") (enc.string m.Short)]
  ++ (if m.Full = [] then [] else [fieldMember (ascii "full_message") (enc.string m.Full)])
  ++ [fieldMember (ascii "timestamp") ts]
  ++ (if m.Level = 0 then [] else [fieldMember (ascii "level") (enc.int32 m.Level)])
  ++ (if m.Facility = [] then [] else [fieldMember (ascii "_facility") (enc.string m.Facility)])

/-- The keys of the members `json.Marshal` writes for a `Message`. -/
def messageKeys (m : Message) : List Bytes :=
  [ascii "version", ascii "host", ascii "short_message"]
  ++ (if m.Full = [] then [] else [ascii "full_message"])
  ++ [ascii "timestamp"]
  ++ (if m.Level = 0 then [] else [ascii "level"])
  ++ (if m.Facility = [] then [] else [ascii "_facility"])

/-- The call `json.Marshal(m)` for a `*Message`. -/
def jsonMarshalMessage (enc : Encoder) (m : Message) : Except EncodeError Bytes :=
  match enc.float64 m.TimeUnix with
  | .error e => .error e
  | .ok ts => .ok (renderObject (messageMembers enc m ts))

/-- The members `encoding/json` writes for the entries of a map, in the
order given; the first value that cannot be encoded fails the whole call. -/
def mapMembers (enc : Encoder) : Fields → Except EncodeError (List Member)
  | [] => .ok []
  | (k, v) :: rest =>
    match enc.value v with
    | .error e => .error e
    | .ok t =>
      match mapMembers enc rest with
      | .error e => .error e
      | .ok ms => .ok (⟨k, enc.string k ++ [58] ++ t⟩ :: ms)

/-- The call `json.Marshal(m.Extra)` for a `map[string]interface{}`: the
entries sorted by key. -/
def jsonMarshalMap (enc : Encoder) (f : Fields) : Except EncodeError Bytes :=
  match mapMembers enc (sortByKey f) with
  | .error e => .error e
  | .ok ms => .ok (renderObject ms)

/-- How a call ends when it does not return a nil error: with the error of
the JSON encoder, or with the run-time panic of a slice expression. -/
inductive Failure where
  | encode (e : EncodeError)
  | sliceBounds
  deriving DecidableEq

/-- The part of `MarshalJSONBuf` guarded by `len(m.Extra) > 0`. -/
def writeExtra (enc : Encoder) (m : Message) (buf : Bytes) : Bytes × Option Failure :=
  if m.Extra.length > 0 then
    match jsonMarshalMap enc m.Extra with
    | .error e => (buf, some (.encode e))
    | .ok eb =>
      match slice eb 1 ((eb.length : Int) - 1) with
      | none => (buf ++ [44], some .sliceBounds)
      | some body => (buf ++ [44] ++ body, none)
  else (buf, none)

/-- The part of `MarshalJSONBuf` guarded by `len(m.RawExtra) > 0`. -/
def writeRawExtra (m : Message) (buf : Bytes) : Bytes × Option Failure :=
  if m.RawExtra.length > 0 then
    match slice m.RawExtra 1 ((m.RawExtra.length : Int) - 1) with
    | none => (buf ++ [44], some .sliceBounds)
    | some body => (buf ++ [44] ++ body, none)
  else (buf, none)

/-- The method `Message.MarshalJSONBuf`.  The result is the content of the
buffer when the call ends and how it ends: `none` for a nil error. -/
def MarshalJSONBuf (enc : Encoder) (m : Message) (buf : Bytes) : Bytes × Option Failure :=
  match jsonMarshalMessage enc m with
  | .error e => (buf, some (.encode e))
  | .ok b =>
    match slice b 0 ((b.length : Int) - 1) with
    | none => (buf, some .sliceBounds)
    | some head =>
      match writeExtra enc m (buf ++ head) with
      | (buf1, some e) => (buf1, some e)
      | (buf1, none) =>
        match writeRawExtra m buf1 with
        | (buf2, some e) => (buf2, some e)
        | (buf2, none) => (buf2 ++ [125, 10], none)

/-- The keys of the object `MarshalJSONBuf` writes for a record without
`RawExtra`: those of the fixed fields, then those of `Extra`. -/
def outputKeys (m : Message) : List Bytes :=
  messageKeys m ++ mapKeys (sortByKey m.Extra)

/-! ## Additional fields -/

/-- The body of the type switch in `formatAdditionalfields`: an error is
replaced by its text, any other value is kept. -/
def formatValue : Value → Value
  | .err d => .str d
  | v => v

/-- The `range` loop of `formatAdditionalfields`, adding to the map `n`. -/
def formatAdditionalfieldsInto : Fields → Fields → Fields
  | n, [] => n
  | n, (k, v) :: rest => formatAdditionalfieldsInto (mapSet n (95 :: k) (formatValue v)) rest

/-- The function `formatAdditionalfields`. -/
def formatAdditionalfields (f : Fields) : Fields := formatAdditionalfieldsInto [] f

/-! ## Caller inference -/

/-- A stack frame as `runtime.Caller` reports it. -/
structure Frame where
  file : Bytes
  line : Int
  deriving DecidableEq

/-- The loop of `getCaller`, on the frames from the current `callDepth`
outward: no frame left is `runtime.Caller` answering `ok == false`. -/
def getCallerFrom (suffixesToIgnore : List Bytes) : List Frame → Bytes × Int
  | [] => (ascii "???", 0)
  | fr :: rest =>
    if suffixesToIgnore.any (fun s => Contains fr.file s) then
      getCallerFrom suffixesToIgnore rest
    else (fr.file, fr.line)

/-- The function `getCaller`.  `stack` is the call stack as `runtime.Caller`
sees it from inside `getCaller` (frame 0 is `getCaller` itself). -/
def getCaller (stack : List Frame) (callDepth : Nat) (suffixesToIgnore : List Bytes) :
    Bytes × Int :=
  getCallerFrom suffixesToIgnore (stack.drop (callDepth + 1))

/-- The function `getCallerIgnoringLogMulti`. -/
def getCallerIgnoringLogMulti (stack : List Frame) (callDepth : Nat) : Bytes × Int :=
  getCaller stack (callDepth + 1)
    [ascii "/pkg/log/log.go", ascii "/pkg/io/multi.go", ascii "/sirupsen/logrus/"]

/-! ## Format -/

/-- The struct `Formatter`. -/
structure Formatter where
  hostname : Bytes
  Facility : Bytes
  deriving DecidableEq

/-- The struct `logrus.Entry`, as far as `Format` uses it; `Time` is the
value of `entry.Time.Unix()`.  `Data` is a map that logrus has allocated, so
that `Format` can assign to it. -/
structure Entry where
  Message : Bytes
  Level : Level
  Data : Fields
  Time : Int
  deriving DecidableEq

/-- The short and the full message that `Format` computes. -/
def Format_short_full (message : Bytes) : Bytes × Bytes :=
  let msg := TrimSpace message
  let i := IndexRune msg 10
  if i > 0 then (msg.take i.toNat, msg) else (msg, [])

/-- The map `entry.Data` after `Format` has written its diagnostic keys. -/
def Format_data (stack : List Frame) (entry : Entry) : Fields :=
  let level := getLevel entry.Level
  let data :=
    if level < LOG_WARNING then
      let caller := getCallerIgnoringLogMulti stack 1
      mapSet (mapSet entry.Data (ascii "file") (.str caller.1)) (ascii "line") (.int caller.2)
    else entry.Data
  mapSet data (ascii "severity") (.str (LevelString entry.Level))

/-- The record `m` that `Format` hands to `MarshalJSONBuf`. -/
def Format_message (f : Formatter) (stack : List Frame) (entry : Entry) : Message :=
  { Version := ascii "1.1"
    Host := f.hostname
    Short := (Format_short_full entry.Message).1
    Full := (Format_short_full entry.Message).2
    TimeUnix := entry.Time
    Level := getLevel entry.Level
    Facility := f.Facility
    Extra := formatAdditionalfields (Format_data stack entry)
    RawExtra := [] }

/-- The method `Formatter.Format`: the bytes returned, or the failure.  The
buffer taken from the pool is empty after `Reset`. -/
def Format (f : Formatter) (enc : Encoder) (stack : List Frame) (entry : Entry) :
    Except Failure Bytes :=
  match MarshalJSONBuf enc (Format_message f stack entry) [] with
  | (_, some e) => .error e
  | (buf, none) => .ok buf

/-- The entry as `Format` leaves it to its caller. -/
def Format_entry (stack : List Frame) (entry : Entry) : Entry :=
  { entry with Data := Format_data stack entry }

/-- The keys of the JSON object in the bytes `Format` returns. -/
def Format_keys (f : Formatter) (stack : List Frame) (entry : Entry) : List Bytes :=
  outputKeys (Format_message f stack entry)

/-! ## A sample encoder and sample inputs -/

/-- An encoder for examples: a string between double quotes without any
escaping, a whole number or an opaque value as the single digit of its
residue modulo 10, an error value as a failure. -/
def sampleEncoder : Encoder where
  string := fun s => [34] ++ s ++ [34]
  float64 := fun x => .ok [48 + x.toNat % 10]
  int32 := fun n => [48 + n.toNat % 10]
  value := fun v =>
    match v with
    | .str s => .ok ([34] ++ s ++ [34])
    | .int n => .ok [48 + n.toNat % 10]
    | .bool b => .ok (if b then ascii "true" else ascii "false")
    | .null => .ok (ascii "null")
    | .err _ => .error ⟨1⟩
    | .other i => .ok [48 + i % 10]

/-- A formatter as `NewGelfFormatter("application-name")` builds it on a
host named `h`. -/
def sampleFormatter : Formatter := ⟨ascii "h", ascii "application-name"⟩

/-- A call stack: the three frames of this package, one frame of logrus,
one frame of the application. -/
def sampleStack : List Frame :=
  [⟨ascii "/src/gelf.go", 227⟩, ⟨ascii "/src/gelf.go", 212⟩, ⟨ascii "/src/gelf.go", 115⟩,
   ⟨ascii "/go/sirupsen/logrus/entry.go", 90⟩, ⟨ascii "/app/main.go", 12⟩]

/-- A record whose `RawExtra` is the empty JSON object. -/
def sampleRecord : Message :=
  { Version := ascii "1.1"
    Host := ascii "h"
    Short := ascii "s"
    Full := []
    TimeUnix := 5
    Level := 0
    Facility := []
    Extra := []
    RawExtra := ascii "\x7b\x7d" }

/-! ## The loop of `getCaller`, the pool of buffers, and two reference definitions -/

/-- The call `runtime.Caller(skip)`: the frame `skip` levels up, or `none`
for `ok == false` when the stack has no such frame. -/
def runtimeCaller (stack : List Frame) (skip : Nat) : Option Frame := stack.get? skip

/-- The `for` loop of `getCaller` as it is written, on the counter
`callDepth`: ask `runtime.Caller(callDepth)`, stop with the sentinel when it
fails, go on with `callDepth + 1` when the file holds one of the fragments,
stop with the frame otherwise.  The loop ends because the stack is finite. -/
def getCallerLoop (stack : List Frame) (suffixesToIgnore : List Bytes) (callDepth : Nat) :
    Bytes × Int :=
  match h : runtimeCaller stack callDepth with
  | none => (ascii "???", 0)
  | some fr =>
    if suffixesToIgnore.any (fun s => Contains fr.file s) then
      getCallerLoop stack suffixesToIgnore (callDepth + 1)
    else (fr.file, fr.line)
termination_by stack.length - callDepth
decreasing_by
  have hlt : callDepth < stack.length := by
    by_contra hge
    have hnone : stack.get? callDepth = none := List.get?_eq_none.mpr (by omega)
    rw [runtimeCaller, hnone] at h
    exact Option.noConfusion h
  omega

/-- The part of the merge that comes from the extra map: a comma and the
text of the map without its first and last byte, or nothing when the map is
empty. -/
def extraPart : Option Bytes → Bytes
  | some e => [44] ++ e.tail.dropLast
  | none => []

/-- The bytes the merge is described to append, from the text `F` of the
fixed fields, the text `E` of the extra map when that map is not empty, and
`rawExtra`: `F` without its last byte; a comma and `E` without its first and
last byte; a comma and `rawExtra` without its first and last byte when it is
not empty; a closing brace and a line feed. -/
def mergedBytes (F : Bytes) (E : Option Bytes) (rawExtra : Bytes) : Bytes :=
  F.dropLast
  ++ extraPart E
  ++ (if rawExtra = [] then [] else [44] ++ rawExtra.tail.dropLast)
  ++ [125, 10]

/-- The text `E` of the extra map as the merge uses it: `json.Marshal` is
called on the map only when the map is not empty. -/
def extraJSON (enc : Encoder) (m : Message) : Except EncodeError (Option Bytes) :=
  if m.Extra = [] then .ok none
  else
    match jsonMarshalMap enc m.Extra with
    | .error e => .error e
    | .ok e => .ok (some e)

/-- The variant of `Format_short_full` whose test is `i >= 0` in place of
`i > 0`. -/
def Format_short_full_ge (message : Bytes) : Bytes × Bytes :=
  let msg := TrimSpace message
  let i := IndexRune msg 10
  if i ≥ 0 then (msg.take i.toNat, msg) else (msg, [])

/-- The buffers of the package: `buffers` holds the content of every
`bytes.Buffer` allocated so far, at the index that identifies it, and `free`
lists the buffers that are in `bufPool`. -/
structure PoolState where
  buffers : List Bytes
  free : List Nat
  deriving DecidableEq

/-- The function `newBuffer`: `bufPool.Get()` hands out a buffer of the pool
when there is one (here the one put back last) and a buffer made by `New`
otherwise; `Reset` empties it.  The result is the buffer and the new
state. -/
def newBuffer (p : PoolState) : Nat × PoolState :=
  match p.free with
  | id :: rest => (id, { buffers := p.buffers.set id [], free := rest })
  | [] => (p.buffers.length, { buffers := p.buffers ++ [[]], free := [] })

/-- The call `bufPool.Put(b)`. -/
def bufPoolPut (p : PoolState) (id : Nat) : PoolState :=
  { p with free := id :: p.free }

/-- The method `Formatter.Format` with its buffer: `newBuffer`, the deferred
`bufPool.Put(mBuf)`, `MarshalJSONBuf` into the buffer, and the return of
`mBuf.Bytes()`, a slice that shares the memory of the buffer.  The result is
the buffer behind the returned bytes together with these bytes, or the
failure, and the state when `Format` has returned, the deferred call
done. -/
def FormatPooled (f : Formatter) (enc : Encoder) (stack : List Frame) (entry : Entry)
    (p : PoolState) : Except Failure (Nat × Bytes) × PoolState :=
  let got := newBuffer p
  let r := MarshalJSONBuf enc (Format_message f stack entry) []
  let after := bufPoolPut { got.2 with buffers := got.2.buffers.set got.1 r.1 } got.1
  match r.2 with
  | some e => (.error e, after)
  | none => (.ok (got.1, r.1), after)

/-- A record with one extra field and a `RawExtra` of one member. -/
def sampleRecordRaw : Message :=
  { Version := ascii "1.1"
    Host := ascii "h"
    Short := ascii "s"
    Full := []
    TimeUnix := 5
    Level := 6
    Facility := []
    Extra := [(ascii "_k", .int 1)]
    RawExtra := ascii "\x7b\"a\":2\x7d" }

/-- A record whose `RawExtra` is a single byte. -/
def sampleRecordOneByte : Message :=
  { sampleRecord with RawExtra := [123] }

/-! ## The keys of the output as a JSON parser reads them -/

/-- Whether `b` is a UTF-8 continuation byte, 0x80 to 0xBF. -/
def isCont (b : Nat) : Bool := decide (0x80 ≤ b) && decide (b ≤ 0xBF)

/-- The table `acceptRanges` of package unicode/utf8: whether `b` may follow
the leading byte `a` of a rune of two bytes or more. -/
def acceptSecond (a b : Nat) : Bool :=
  if a = 0xE0 then decide (0xA0 ≤ b) && decide (b ≤ 0xBF)
  else if a = 0xED then decide (0x80 ≤ b) && decide (b ≤ 0x9F)
  else if a = 0xF0 then decide (0x90 ≤ b) && decide (b ≤ 0xBF)
  else if a = 0xF4 then decide (0x80 ≤ b) && decide (b ≤ 0x8F)
  else isCont b

/-- The size that `utf8.DecodeRuneInString` reports for the rune at the start
of `s` when that rune is well formed, and 0 when it reports `RuneError` with
size 1 (an invalid or cut-off sequence) or `s` is empty. -/
def runeSize : Bytes → Nat
  | [] => 0
  | a :: rest =>
    if a < 0x80 then 1
    else if a < 0xC2 then 0
    else if a < 0xE0 then
      match rest with
      | b :: _ => if acceptSecond a b then 2 else 0
      | [] => 0
    else if a < 0xF0 then
      match rest with
      | b :: c :: _ => if acceptSecond a b && isCont c then 3 else 0
      | _ => 0
    else if a < 0xF5 then
      match rest with
      | b :: c :: d :: _ => if acceptSecond a b && isCont c && isCont d then 4 else 0
      | _ => 0
    else 0

/-- The scan of `jsonKey`; `skip` counts the bytes still to copy of a rune
that has been accepted. -/
def jsonKeyFrom : Nat → Bytes → Bytes
  | _, [] => []
  | skip + 1, a :: rest => a :: jsonKeyFrom skip rest
  | 0, a :: rest =>
    if runeSize (a :: rest) = 0 then [0xEF, 0xBF, 0xBD] ++ jsonKeyFrom 0 rest
    else a :: jsonKeyFrom (runeSize (a :: rest) - 1) rest

/-- The key that a JSON parser reads back from the text `encoding/json`
writes for the Go string `k`: the encoder keeps every well-formed rune
(escaped or not) and writes the escape of the rune U+FFFD, whose UTF-8 bytes
are EF BF BD, for every byte that `utf8.DecodeRuneInString` rejects. -/
def jsonKey (k : Bytes) : Bytes := jsonKeyFrom 0 k

/-- The keys of the JSON object `MarshalJSONBuf` writes for a record without
`RawExtra`, as a JSON parser reads them: the tag names of the fixed fields,
then the keys of `Extra` in the order they are written. -/
def outputJSONKeys (m : Message) : List Bytes :=
  messageKeys m ++ (mapKeys (sortByKey m.Extra)).map jsonKey

/-- The keys of the JSON object in the bytes `Format` returns, as a JSON
parser reads them. -/
def Format_jsonKeys (f : Formatter) (stack : List Frame) (entry : Entry) : List Bytes :=
  outputJSONKeys (Format_message f stack entry)

/-! ## Lemmas on trimming and searching -/

theorem TrimLeftSpace_head (s : Bytes) :
    ∀ a rest, TrimLeftSpace s = a :: rest → asciiSpace a = false := by
  induction s using TrimLeftSpace.induct <;> simp_all [TrimLeftSpace]

theorem dropSpaceRev_tail (s : Bytes) : ∃ u, s = u ++ dropSpaceRev s := by
  induction s using dropSpaceRev.induct with
  | case1 => exact ⟨[], rfl⟩
  | case2 c h => exact ⟨[c], by simp [dropSpaceRev, h]⟩
  | case3 c h => exact ⟨[], by simp [dropSpaceRev, h]⟩
  | case4 c b h ih =>
    obtain ⟨u, hu⟩ := ih
    have e : dropSpaceRev [c, b] = dropSpaceRev [b] := by simp [dropSpaceRev, h]
    exact ⟨c :: u, by rw [e, List.cons_append, ← hu]⟩
  | case5 c b h1 h2 => exact ⟨[c, b], by simp [dropSpaceRev, h1, h2]⟩
  | case6 c b h1 h2 => exact ⟨[], by simp [dropSpaceRev, h1, h2]⟩
  | case7 c b a rest h ih =>
    obtain ⟨u, hu⟩ := ih
    exact ⟨c :: u, by simp [dropSpaceRev, h, ← hu]⟩
  | case8 c b a rest h1 h2 ih =>
    obtain ⟨u, hu⟩ := ih
    exact ⟨c :: b :: u, by simp [dropSpaceRev, h1, h2, ← hu]⟩
  | case9 c b a rest h1 h2 h3 ih =>
    obtain ⟨u, hu⟩ := ih
    exact ⟨c :: b :: a :: u, by simp [dropSpaceRev, h1, h2, h3, ← hu]⟩
  | case10 c b a rest h1 h2 h3 => exact ⟨[], by simp [dropSpaceRev, h1, h2, h3]⟩

theorem TrimRightSpace_lead (t : Bytes) : ∃ u, t = TrimRightSpace t ++ u := by
  obtain ⟨u, hu⟩ := dropSpaceRev_tail t.reverse
  refine ⟨u.reverse, ?_⟩
  have := congrArg List.reverse hu
  simpa [TrimRightSpace] using this

theorem TrimSpace_head (m : Bytes) (a : Nat) (rest : Bytes)
    (h : TrimSpace m = a :: rest) : asciiSpace a = false := by
  obtain ⟨u, hu⟩ := TrimRightSpace_lead (TrimLeftSpace m)
  unfold TrimSpace at h
  rw [h] at hu
  exact TrimLeftSpace_head m a (rest ++ u) (by simpa using hu)

theorem TrimSpace_linefeed (rest : Bytes) : TrimSpace (10 :: rest) = TrimSpace rest := by
  have : TrimLeftSpace (10 :: rest) = TrimLeftSpace rest := by
    match rest with
    | [] => simp [TrimLeftSpace, asciiSpace]
    | [b] => simp [TrimLeftSpace, asciiSpace]
    | b :: c :: r => simp [TrimLeftSpace, asciiSpace]
  simp [TrimSpace, this]

theorem IndexByte_ge (s : Bytes) (c : Nat) : -1 ≤ IndexByte s c := by
  induction s with
  | nil => simp [IndexByte]
  | cons a rest ih =>
    simp only [IndexByte]
    split_ifs <;> omega

theorem IndexByte_neg_iff (s : Bytes) (c : Nat) : IndexByte s c < 0 ↔ c ∉ s := by
  induction s with
  | nil => simp [IndexByte]
  | cons a rest ih =>
    have := IndexByte_ge rest c
    simp only [IndexByte, List.mem_cons, not_or]
    split_ifs with h1 h2
    · subst h1; simp
    · simp only [ih] at h2
      constructor
      · intro _; exact ⟨fun h => h1 h.symm, h2⟩
      · intro _; omega
    · simp only [ih] at h2
      constructor
      · intro h; omega
      · intro h; exact absurd h.2 h2

/-- The value of `IndexByte` is the first position that holds the byte. -/
theorem IndexByte_first (s : Bytes) (c : Nat) (i : Nat)
    (hi : s.get? i = some c) (hfirst : ∀ j, j < i → s.get? j ≠ some c) :
    IndexByte s c = (i : Int) := by
  induction s generalizing i with
  | nil => simp at hi
  | cons a rest ih =>
    cases i with
    | zero =>
      simp at hi
      simp [IndexByte, hi]
    | succ n =>
      have h0 := hfirst 0 (Nat.succ_pos n)
      simp at h0
      have hrest := ih n (by simpa using hi) (fun j hj => by
        have := hfirst (j + 1) (Nat.succ_lt_succ hj)
        simpa using this)
      simp only [IndexByte, hrest, if_neg h0]
      split_ifs <;> omega

/-- A non-negative value of `IndexByte` is a position that holds the byte,
and no earlier position does. -/
theorem IndexByte_spec (s : Bytes) (c : Nat) (h : 0 ≤ IndexByte s c) :
    s.get? (IndexByte s c).toNat = some c ∧
      ∀ j, j < (IndexByte s c).toNat → s.get? j ≠ some c := by
  induction s with
  | nil => simp [IndexByte] at h
  | cons a rest ih =>
    simp only [IndexByte] at h ⊢
    split_ifs at h ⊢ with h1 h2
    · subst h1; simp
    · omega
    · have hr : 0 ≤ IndexByte rest c := by omega
      obtain ⟨h3, h4⟩ := ih hr
      have e : (IndexByte rest c + 1).toNat = (IndexByte rest c).toNat + 1 := by omega
      rw [e]
      refine ⟨by simpa using h3, ?_⟩
      intro j hj
      cases j with
      | zero => simpa using h1
      | succ n => simpa using h4 n (by omega)

/-! ## Lemmas on field maps -/

theorem mapKeys_mapSet (f : Fields) (k : Bytes) (v : Value) :
    mapKeys (mapSet f k v) = if k ∈ mapKeys f then mapKeys f else mapKeys f ++ [k] := by
  induction f with
  | nil => simp [mapSet, mapKeys]
  | cons e rest ih =>
    obtain ⟨k', v'⟩ := e
    simp only [mapKeys, List.map_cons, List.mem_cons] at ih ⊢
    simp only [mapSet]
    by_cases h : k' = k
    · subst h; simp
    · have h' : ¬ k = k' := fun e => h e.symm
      simp only [h, if_false, List.map_cons, ih, h', false_or]
      split_ifs <;> simp

theorem mem_mapKeys_mapSet (f : Fields) (k : Bytes) (v : Value) (x : Bytes) :
    x ∈ mapKeys (mapSet f k v) ↔ x = k ∨ x ∈ mapKeys f := by
  rw [mapKeys_mapSet]
  split_ifs with h
  · constructor
    · intro hx; exact Or.inr hx
    · rintro (rfl | hx)
      · exact h
      · exact hx
  · simp [or_comm]

theorem WellFormed_mapSet (f : Fields) (k : Bytes) (v : Value) (h : WellFormed f) :
    WellFormed (mapSet f k v) := by
  unfold WellFormed at h ⊢
  rw [mapKeys_mapSet]
  split_ifs with hk
  · exact h
  · exact List.Nodup.append h (List.nodup_singleton k) (by simpa using hk)

theorem mapGet_mapSet (f : Fields) (k : Bytes) (v : Value) (x : Bytes) :
    mapGet (mapSet f k v) x = if x = k then some v else mapGet f x := by
  induction f with
  | nil =>
    simp only [mapSet, mapGet]
    by_cases h : k = x
    · subst h; simp
    · have h' : ¬ x = k := fun e => h e.symm
      simp [h, h']
  | cons e rest ih =>
    obtain ⟨k', v'⟩ := e
    simp only [mapSet]
    by_cases h : k' = k
    · subst h
      by_cases hx : k' = x
      · subst hx; simp [mapGet]
      · have hx' : ¬ x = k' := fun e => hx e.symm
        simp [mapGet, hx, hx']
    · simp only [h, if_false, mapGet, ih]
      by_cases hx : k' = x
      · subst hx; simp [h]
      · simp [hx]

theorem mapGet_eq_none_iff (f : Fields) (x : Bytes) : mapGet f x = none ↔ x ∉ mapKeys f := by
  induction f with
  | nil => simp [mapGet, mapKeys]
  | cons e rest ih =>
    obtain ⟨k', v'⟩ := e
    simp only [mapKeys, List.map_cons, List.mem_cons, not_or] at ih ⊢
    simp only [mapGet]
    by_cases h : k' = x
    · subst h; simp
    · have h' : ¬ x = k' := fun e => h e.symm
      simp [h, h', ih]

theorem mem_mapKeys_of_mapGet (f : Fields) (x : Bytes) (v : Value) (h : mapGet f x = some v) :
    x ∈ mapKeys f := by
  by_contra hx
  rw [← mapGet_eq_none_iff] at hx
  rw [hx] at h
  exact Option.noConfusion h

theorem insertByKey_perm (e : Bytes × Value) (f : Fields) : (insertByKey e f).Perm (e :: f) := by
  induction f with
  | nil => simp [insertByKey]
  | cons x rest ih =>
    simp only [insertByKey]
    split_ifs
    · exact List.Perm.refl _
    · exact (List.Perm.cons x ih).trans (List.Perm.swap e x rest)

theorem sortByKey_perm (f : Fields) : (sortByKey f).Perm f := by
  induction f with
  | nil => exact List.Perm.refl _
  | cons e rest ih => exact (insertByKey_perm e _).trans (List.Perm.cons e ih)

theorem mapKeys_sortByKey_perm (f : Fields) : (mapKeys (sortByKey f)).Perm (mapKeys f) :=
  (sortByKey_perm f).map Prod.fst

theorem mem_mapKeys_sortByKey (f : Fields) (x : Bytes) :
    x ∈ mapKeys (sortByKey f) ↔ x ∈ mapKeys f :=
  (mapKeys_sortByKey_perm f).mem_iff

/-! ## Lemmas on `formatAdditionalfields` -/

theorem mem_mapKeys_into (f n : Fields) (x : Bytes) :
    x ∈ mapKeys (formatAdditionalfieldsInto n f) ↔
      x ∈ mapKeys n ∨ ∃ k, k ∈ mapKeys f ∧ x = 95 :: k := by
  induction f generalizing n with
  | nil => simp [formatAdditionalfieldsInto, mapKeys]
  | cons e rest ih =>
    obtain ⟨k', v'⟩ := e
    simp only [formatAdditionalfieldsInto, ih, mem_mapKeys_mapSet]
    simp only [mapKeys, List.map_cons, List.mem_cons]
    constructor
    · rintro ((rfl | h) | ⟨k, hk, rfl⟩)
      · exact Or.inr ⟨k', Or.inl rfl, rfl⟩
      · exact Or.inl h
      · exact Or.inr ⟨k, Or.inr hk, rfl⟩
    · rintro (h | ⟨k, rfl | hk, rfl⟩)
      · exact Or.inl (Or.inr h)
      · exact Or.inl (Or.inl rfl)
      · exact Or.inr ⟨k, hk, rfl⟩

theorem mem_mapKeys_formatAdditionalfields (f : Fields) (x : Bytes) :
    x ∈ mapKeys (formatAdditionalfields f) ↔ ∃ k, k ∈ mapKeys f ∧ x = 95 :: k := by
  unfold formatAdditionalfields
  rw [mem_mapKeys_into]
  simp [mapKeys]

theorem WellFormed_into (f n : Fields) (h : WellFormed n) :
    WellFormed (formatAdditionalfieldsInto n f) := by
  induction f generalizing n with
  | nil => simpa [formatAdditionalfieldsInto] using h
  | cons e rest ih =>
    obtain ⟨k', v'⟩ := e
    exact ih _ (WellFormed_mapSet n _ _ h)

theorem WellFormed_formatAdditionalfields (f : Fields) :
    WellFormed (formatAdditionalfields f) :=
  WellFormed_into f [] (by simp [WellFormed, mapKeys])

theorem mapGet_into_other (f n : Fields) (x : Bytes)
    (h : ∀ k, k ∈ mapKeys f → x ≠ 95 :: k) :
    mapGet (formatAdditionalfieldsInto n f) x = mapGet n x := by
  induction f generalizing n with
  | nil => simp [formatAdditionalfieldsInto]
  | cons e rest ih =>
    obtain ⟨k', v'⟩ := e
    simp only [formatAdditionalfieldsInto]
    rw [ih _ (fun k hk => h k (by simp [mapKeys] at hk ⊢; exact Or.inr hk)), mapGet_mapSet]
    have := h k' (by simp [mapKeys])
    simp [this]

theorem mapGet_into (f n : Fields) (k : Bytes) (v : Value)
    (hf : WellFormed f) (hk : mapGet f k = some v) :
    mapGet (formatAdditionalfieldsInto n f) (95 :: k) = some (formatValue v) := by
  induction f generalizing n with
  | nil => simp [mapGet] at hk
  | cons e rest ih =>
    obtain ⟨k', v'⟩ := e
    have hnd : k' ∉ mapKeys rest ∧ WellFormed rest := by
      simpa [WellFormed, mapKeys] using hf
    simp only [formatAdditionalfieldsInto]
    simp only [mapGet] at hk
    by_cases h : k' = k
    · subst h
      simp only [if_true, Option.some.injEq] at hk
      subst hk
      rw [mapGet_into_other, mapGet_mapSet]
      · simp
      · intro k hk e
        simp only [List.cons.injEq, true_and] at e
        subst e
        exact hnd.1 hk
    · simp only [h, if_false] at hk
      exact ih _ hnd.2 hk

/-! ## Lemmas on the record built by `Format` -/

theorem mem_messageKeys (m : Message) (x : Bytes) :
    x ∈ messageKeys m ↔
      x = ascii "version" ∨ x = ascii "host" ∨ x = ascii "short_message" ∨
      (m.Full ≠ [] ∧ x = ascii "full_message") ∨ x = ascii "timestamp" ∨
      (m.Level ≠ 0 ∧ x = ascii "level") ∨ (m.Facility ≠ [] ∧ x = ascii "_facility") := by
  unfold messageKeys
  by_cases h1 : m.Full = [] <;> by_cases h2 : m.Level = 0 <;> by_cases h3 : m.Facility = [] <;>
    simp [h1, h2, h3]

theorem mem_mapKeys_Format_data (stack : List Frame) (entry : Entry) (x : Bytes) :
    x ∈ mapKeys (Format_data stack entry) ↔
      x ∈ mapKeys entry.Data ∨ x = ascii "severity" ∨
      (getLevel entry.Level < LOG_WARNING ∧ (x = ascii "file" ∨ x = ascii "line")) := by
  unfold Format_data
  by_cases h : getLevel entry.Level < LOG_WARNING
  · simp only [h, if_true, mem_mapKeys_mapSet, true_and]
    tauto
  · simp only [h, if_false, mem_mapKeys_mapSet, false_and, or_false]
    tauto

theorem WellFormed_Format_data (stack : List Frame) (entry : Entry)
    (h : WellFormed entry.Data) : WellFormed (Format_data stack entry) := by
  unfold Format_data
  by_cases hl : getLevel entry.Level < LOG_WARNING
  · simp only [hl, if_true]
    exact WellFormed_mapSet _ _ _ (WellFormed_mapSet _ _ _ (WellFormed_mapSet _ _ _ h))
  · simp only [hl, if_false]
    exact WellFormed_mapSet _ _ _ h

theorem mem_Format_keys (f : Formatter) (stack : List Frame) (entry : Entry) (x : Bytes) :
    x ∈ Format_keys f stack entry ↔
      x ∈ messageKeys (Format_message f stack entry) ∨
      ∃ k, k ∈ mapKeys (Format_data stack entry) ∧ x = 95 :: k := by
  unfold Format_keys outputKeys
  rw [List.mem_append, mem_mapKeys_sortByKey]
  have : (Format_message f stack entry).Extra =
      formatAdditionalfields (Format_data stack entry) := rfl
  rw [this, mem_mapKeys_formatAdditionalfields]

theorem Format_short_full_of_break (message : Bytes) (i : Nat) (hpos : 0 < i)
    (hbreak : (TrimSpace message).get? i = some 10)
    (hfirst : ∀ j, j < i → (TrimSpace message).get? j ≠ some 10) :
    Format_short_full message = ((TrimSpace message).take i, TrimSpace message) := by
  have e := IndexByte_first (TrimSpace message) 10 i hbreak hfirst
  simp only [Format_short_full, IndexRune, e]
  have : ((i : Int) > 0) := by omega
  simp [this]

theorem Format_short_full_of_no_break (message : Bytes) (h : 10 ∉ TrimSpace message) :
    Format_short_full message = (TrimSpace message, []) := by
  have e := (IndexByte_neg_iff (TrimSpace message) 10).2 h
  simp only [Format_short_full, IndexRune]
  have : ¬ (IndexByte (TrimSpace message) 10 > 0) := by omega
  simp [this]

/-! ## Message shaping -/

/-- C1: when the trimmed message has its first line break at an index `i > 0`,
the record built by `Format` has the text before that break as short message
and the whole trimmed text as full message, and `full_message` is one of the
keys of the output. -/
theorem Format_multiline_message (f : Formatter) (stack : List Frame) (entry : Entry)
    (i : Nat) (hpos : 0 < i)
    (hbreak : (TrimSpace entry.Message).get? i = some 10)
    (hfirst : ∀ j, j < i → (TrimSpace entry.Message).get? j ≠ some 10) :
    (Format_message f stack entry).Short = (TrimSpace entry.Message).take i ∧
    (Format_message f stack entry).Full = TrimSpace entry.Message ∧
    ascii "full_message" ∈ Format_keys f stack entry := by
  have e := Format_short_full_of_break entry.Message i hpos hbreak hfirst
  have hne : TrimSpace entry.Message ≠ [] := by
    intro h0
    rw [h0] at hbreak
    simp at hbreak
  refine ⟨by simp [Format_message, e], by simp [Format_message, e], ?_⟩
  rw [mem_Format_keys, mem_messageKeys]
  refine Or.inl (Or.inr (Or.inr (Or.inr (Or.inl ⟨?_, rfl⟩))))
  simpa [Format_message, e] using hne

/-- A witness of C1: the message of `TestWithFullMessage`, whose first line
break is at index 21. -/
theorem Format_multiline_message_witness :
    (Format_message sampleFormatter sampleStack
        ⟨ascii "Starting application.\n Waiting for request ...", InfoLevel, [], 0⟩).Short
      = ascii "Starting application." ∧
    (Format_message sampleFormatter sampleStack
        ⟨ascii "Starting application.\n Waiting for request ...", InfoLevel, [], 0⟩).Full
      = ascii "Starting application.\n Waiting for request ..." ∧
    ascii "full_message" ∈ Format_keys sampleFormatter sampleStack
        ⟨ascii "Starting application.\n Waiting for request ...", InfoLevel, [], 0⟩ :=
  Format_multiline_message sampleFormatter sampleStack
    ⟨ascii "Starting application.\n Waiting for request ...", InfoLevel, [], 0⟩ 21
    (by decide) (by decide) (by decide)

/-- C2: when the trimmed message holds no line break, the record built by
`Format` has the whole trimmed message as short message and an empty full
message, and `full_message` is not among the keys of the output. -/
theorem Format_single_line_message (f : Formatter) (stack : List Frame) (entry : Entry)
    (h : 10 ∉ TrimSpace entry.Message) :
    (Format_message f stack entry).Short = TrimSpace entry.Message ∧
    (Format_message f stack entry).Full = [] ∧
    ascii "full_message" ∉ Format_keys f stack entry := by
  have e := Format_short_full_of_no_break entry.Message h
  refine ⟨by simp [Format_message, e], by simp [Format_message, e], ?_⟩
  rw [mem_Format_keys, mem_messageKeys]
  have hfull : (Format_message f stack entry).Full = [] := by simp [Format_message, e]
  rintro (h1 | ⟨k, _, hk⟩)
  · rcases h1 with h1 | h1 | h1 | h1 | h1 | h1 | h1
    · exact absurd h1 (by decide)
    · exact absurd h1 (by decide)
    · exact absurd h1 (by decide)
    · exact h1.1 hfull
    · exact absurd h1 (by decide)
    · exact absurd h1.2 (by decide)
    · exact absurd h1.2 (by decide)
  · have h102 : (ascii "full_message").head? = some 102 := by decide
    have := congrArg List.head? hk
    rw [h102] at this
    simp at this

/-- A witness of C2: the message of `TestWithSingleMessage`. -/
theorem Format_single_line_message_witness :
    (Format_message sampleFormatter sampleStack
        ⟨ascii "Short message only.", InfoLevel, [], 0⟩).Short = ascii "Short message only." ∧
    (Format_message sampleFormatter sampleStack
        ⟨ascii "Short message only.", InfoLevel, [], 0⟩).Full = [] ∧
    ascii "full_message" ∉ Format_keys sampleFormatter sampleStack
        ⟨ascii "Short message only.", InfoLevel, [], 0⟩ :=
  Format_single_line_message sampleFormatter sampleStack
    ⟨ascii "Short message only.", InfoLevel, [], 0⟩ (by decide)

/-! ## Severity mapping -/

/-- C3: `getLevel` maps Panic to 0, Fatal to 2, Error to 3, Warn to 4, Info
to 6 and Debug to 7, and every other level (Trace, or a value out of range)
to 0. -/
theorem getLevel_table :
    getLevel PanicLevel = 0 ∧ getLevel FatalLevel = 2 ∧ getLevel ErrorLevel = 3 ∧
    getLevel WarnLevel = 4 ∧ getLevel InfoLevel = 6 ∧ getLevel DebugLevel = 7 ∧
    ∀ l : Level, l ≠ PanicLevel → l ≠ FatalLevel → l ≠ ErrorLevel → l ≠ WarnLevel →
      l ≠ InfoLevel → l ≠ DebugLevel → getLevel l = 0 := by
  refine ⟨by decide, by decide, by decide, by decide, by decide, by decide, ?_⟩
  intro l h0 h1 h2 h3 h4 h5
  simp [getLevel, h0, h1, h2, h3, h4, h5]

/-- A witness of C3: the Trace level is mapped to 0. -/
theorem getLevel_table_witness : getLevel TraceLevel = 0 :=
  getLevel_table.2.2.2.2.2.2 TraceLevel (by decide) (by decide) (by decide) (by decide)
    (by decide) (by decide)

/-! ## Field names -/

theorem messageKeys_nodup (m : Message) : (messageKeys m).Nodup := by
  unfold messageKeys
  by_cases h1 : m.Full = [] <;> by_cases h2 : m.Level = 0 <;> by_cases h3 : m.Facility = [] <;>
    simp only [h1, h2, h3, if_true, if_false] <;> decide

theorem underscore_of_mem_messageKeys (m : Message) (k : Bytes)
    (h : 95 :: k ∈ messageKeys m) : m.Facility ≠ [] ∧ k = ascii "facility" := by
  rw [mem_messageKeys] at h
  have hd : ∀ s : String, (ascii s).head? ≠ some 95 → 95 :: k ≠ ascii s := by
    intro s hs e
    exact hs (by rw [← e]; rfl)
  rcases h with h | h | h | h | h | h | h
  · exact absurd h (hd _ (by decide))
  · exact absurd h (hd _ (by decide))
  · exact absurd h (hd _ (by decide))
  · exact absurd h.2 (hd _ (by decide))
  · exact absurd h (hd _ (by decide))
  · exact absurd h.2 (hd _ (by decide))
  · refine ⟨h.1, ?_⟩
    have e : ascii "_facility" = 95 :: ascii "facility" := by decide
    have := h.2
    rw [e] at this
    exact (List.cons.inj this).2

theorem jsonKeyFrom_of_ascii (k : Bytes) :
    ∀ skip, (∀ b, b ∈ jsonKeyFrom skip k → b < 128) → jsonKeyFrom skip k = k := by
  induction k with
  | nil => intro skip _; cases skip <;> rfl
  | cons a rest ih =>
    intro skip h
    cases skip with
    | succ n =>
      simp only [jsonKeyFrom] at h ⊢
      rw [ih n (fun b hb => h b (List.mem_cons_of_mem _ hb))]
    | zero =>
      simp only [jsonKeyFrom] at h ⊢
      by_cases hz : runeSize (a :: rest) = 0
      · simp only [hz, if_true] at h
        have := h 0xEF (by simp)
        omega
      · simp only [hz, if_false] at h ⊢
        rw [ih _ (fun b hb => h b (List.mem_cons_of_mem _ hb))]

theorem jsonKey_eq_ascii (k y : Bytes) (hy : ∀ b, b ∈ y → b < 128) (h : jsonKey k = y) :
    k = y := by
  have := jsonKeyFrom_of_ascii k 0 (by
    intro b hb
    have hb' : b ∈ jsonKey k := hb
    rw [h] at hb'
    exact hy b hb')
  rw [← h]
  exact this.symm

theorem jsonKey_underscore (k : Bytes) : jsonKey (95 :: k) = 95 :: jsonKey k := by
  simp [jsonKey, jsonKeyFrom, runeSize]

theorem jsonKey_messageKeys (m : Message) : (messageKeys m).map jsonKey = messageKeys m := by
  unfold messageKeys
  by_cases h1 : m.Full = [] <;> by_cases h2 : m.Level = 0 <;> by_cases h3 : m.Facility = [] <;>
    simp only [h1, h2, h3, if_true, if_false] <;> decide

theorem mem_extra_jsonKeys (f : Formatter) (stack : List Frame) (entry : Entry) (x : Bytes) :
    x ∈ (mapKeys (Format_message f stack entry).Extra).map jsonKey ↔
      ∃ k, k ∈ mapKeys (Format_data stack entry) ∧ x = 95 :: jsonKey k := by
  have hextra : (Format_message f stack entry).Extra =
      formatAdditionalfields (Format_data stack entry) := rfl
  rw [hextra, List.mem_map]
  constructor
  · rintro ⟨y, hy, rfl⟩
    obtain ⟨k, hk, rfl⟩ := (mem_mapKeys_formatAdditionalfields _ y).1 hy
    exact ⟨k, hk, jsonKey_underscore k⟩
  · rintro ⟨k, hk, rfl⟩
    exact ⟨95 :: k, (mem_mapKeys_formatAdditionalfields _ _).2 ⟨k, hk, rfl⟩,
      jsonKey_underscore k⟩

theorem facility_mem_Format_data (stack : List Frame) (entry : Entry) :
    ascii "facility" ∈ mapKeys (Format_data stack entry) ↔
      ascii "facility" ∈ mapKeys entry.Data := by
  rw [mem_mapKeys_Format_data]
  constructor
  · rintro (h | h | ⟨_, h | h⟩)
    · exact h
    · exact absurd h (by decide)
    · exact absurd h (by decide)
    · exact absurd h (by decide)
  · intro h; exact Or.inl h

theorem Format_jsonKeys_nodup (f : Formatter) (stack : List Frame) (entry : Entry) :
    (Format_jsonKeys f stack entry).Nodup ↔
      (f.Facility = [] ∨ ascii "facility" ∉ mapKeys entry.Data) ∧
      ((mapKeys (Format_message f stack entry).Extra).map jsonKey).Nodup := by
  have hfac : (Format_message f stack entry).Facility = f.Facility := rfl
  have hperm : ((mapKeys (sortByKey (Format_message f stack entry).Extra)).map jsonKey).Perm
      ((mapKeys (Format_message f stack entry).Extra).map jsonKey) :=
    (mapKeys_sortByKey_perm _).map jsonKey
  have hasc : ∀ b, b ∈ ascii "facility" → b < 128 := by decide
  unfold Format_jsonKeys outputJSONKeys
  rw [List.nodup_append, hperm.nodup_iff]
  constructor
  · rintro ⟨_, hn, hdis⟩
    refine ⟨?_, hn⟩
    by_contra hcon
    rw [not_or, not_not] at hcon
    refine hdis (a := ascii "_facility") ?_ ?_
    · rw [mem_messageKeys, hfac]
      exact Or.inr (Or.inr (Or.inr (Or.inr (Or.inr (Or.inr ⟨hcon.1, rfl⟩)))))
    · rw [hperm.mem_iff, mem_extra_jsonKeys]
      exact ⟨ascii "facility", (facility_mem_Format_data stack entry).2 hcon.2, by decide⟩
  · rintro ⟨h, hn⟩
    refine ⟨messageKeys_nodup _, hn, ?_⟩
    intro x hx1 hx2
    rw [hperm.mem_iff, mem_extra_jsonKeys] at hx2
    obtain ⟨k, hk, rfl⟩ := hx2
    obtain ⟨h1, h2⟩ := underscore_of_mem_messageKeys _ _ hx1
    rw [hfac] at h1
    have hkeq : k = ascii "facility" := jsonKey_eq_ascii k _ hasc h2
    subst hkeq
    rcases h with h | h
    · exact h1 h
    · exact h ((facility_mem_Format_data stack entry).1 hk)

/-- C5 fails as stated: with a caller field named `facility` the output holds
the key `_facility` twice. -/
theorem Format_keys_facility_twice :
    WellFormed [(ascii "facility", .str (ascii "x"))] ∧
    Format_jsonKeys sampleFormatter sampleStack
        ⟨ascii "animal", InfoLevel, [(ascii "facility", .str (ascii "x"))], 0⟩ =
      [ascii "version", ascii "host", ascii "short_message", ascii "timestamp", ascii "level",
        ascii "_facility", ascii "_facility", ascii "_severity"] ∧
    ¬ (Format_jsonKeys sampleFormatter sampleStack
        ⟨ascii "animal", InfoLevel, [(ascii "facility", .str (ascii "x"))], 0⟩).Nodup ∧
    ¬ (Format_keys sampleFormatter sampleStack
        ⟨ascii "animal", InfoLevel, [(ascii "facility", .str (ascii "x"))], 0⟩).Nodup := by
  decide

/-- C5, amended: as a JSON parser reads the output, no key of the extra map
is one of `version`, `host`, `short_message`, `full_message`, `timestamp`,
`level`; the output has no duplicate key if and only if the facility is empty
or no caller field is named `facility`, and no two keys of the extra map are
read as the same key (the encoder writes U+FFFD for every invalid byte of a
key, so two keys that differ in invalid bytes only are written alike); and
when every caller key is well-formed UTF-8, the output has no duplicate key
if and only if the facility is empty or no caller field is named
`facility`. -/
theorem Format_jsonKeys_nodup_iff (f : Formatter) (stack : List Frame) (entry : Entry) :
    (∀ x, x ∈ (mapKeys (Format_message f stack entry).Extra).map jsonKey →
      x ∉ [ascii "version", ascii "host", ascii "short_message", ascii "full_message",
        ascii "timestamp", ascii "level"]) ∧
    ((Format_jsonKeys f stack entry).Nodup ↔
      (f.Facility = [] ∨ ascii "facility" ∉ mapKeys entry.Data) ∧
      ((mapKeys (Format_message f stack entry).Extra).map jsonKey).Nodup) ∧
    ((∀ k, k ∈ mapKeys entry.Data → jsonKey k = k) →
      ((Format_jsonKeys f stack entry).Nodup ↔
        (f.Facility = [] ∨ ascii "facility" ∉ mapKeys entry.Data))) := by
  refine ⟨?_, Format_jsonKeys_nodup f stack entry, ?_⟩
  · intro x hx hmem
    obtain ⟨k, _, rfl⟩ := (mem_extra_jsonKeys f stack entry x).1 hx
    have h95 : ∀ s : String, (ascii s).head? ≠ some 95 → 95 :: jsonKey k ≠ ascii s := by
      intro s hs e
      exact hs (by rw [← e]; rfl)
    simp only [List.mem_cons, List.mem_singleton, List.not_mem_nil, or_false] at hmem
    rcases hmem with h | h | h | h | h | h
    · exact h95 _ (by decide) h
    · exact h95 _ (by decide) h
    · exact h95 _ (by decide) h
    · exact h95 _ (by decide) h
    · exact h95 _ (by decide) h
    · exact h95 _ (by decide) h
  · intro hvalid
    rw [Format_jsonKeys_nodup]
    have hextra : (Format_message f stack entry).Extra =
        formatAdditionalfields (Format_data stack entry) := rfl
    have hid : (mapKeys (Format_message f stack entry).Extra).map jsonKey =
        mapKeys (Format_message f stack entry).Extra := by
      conv_rhs => rw [← List.map_id (mapKeys (Format_message f stack entry).Extra)]
      apply List.map_congr_left
      intro x hx
      rw [hextra, mem_mapKeys_formatAdditionalfields] at hx
      obtain ⟨k, hk, rfl⟩ := hx
      rw [jsonKey_underscore]
      have hkk : jsonKey k = k := by
        rw [mem_mapKeys_Format_data] at hk
        rcases hk with hk | hk | ⟨_, hk | hk⟩
        · exact hvalid k hk
        · rw [hk]; decide
        · rw [hk]; decide
        · rw [hk]; decide
      rw [hkk]
      rfl
    rw [hid, hextra]
    exact ⟨fun h => h.1, fun h => ⟨h, WellFormed_formatAdditionalfields _⟩⟩

/-- A witness of the amended C5: with an empty facility, the caller keys made
of `a` and the invalid byte 0xFF, and of `a` and the invalid byte 0xFE, are
both read as `_a` and U+FFFD, a duplicate; the caller keys `animal` and
`facility` with an empty facility give no duplicate. -/
theorem Format_jsonKeys_nodup_iff_witness :
    WellFormed [([97, 255], .int 1), ([97, 254], .int 2)] ∧
    jsonKey [95, 97, 255] = [95, 97, 0xEF, 0xBF, 0xBD] ∧
    jsonKey [95, 97, 254] = [95, 97, 0xEF, 0xBF, 0xBD] ∧
    ¬ (Format_jsonKeys ⟨ascii "h", []⟩ sampleStack
        ⟨ascii "animal", InfoLevel, [([97, 255], .int 1), ([97, 254], .int 2)], 0⟩).Nodup ∧
    (Format_jsonKeys ⟨ascii "h", []⟩ sampleStack
        ⟨ascii "animal", InfoLevel,
          [(ascii "animal", .str (ascii "walrus")), (ascii "facility", .int 2)], 0⟩).Nodup :=
  ⟨by decide, by decide, by decide,
   fun h => absurd ((Format_jsonKeys_nodup_iff ⟨ascii "h", []⟩ sampleStack
      ⟨ascii "animal", InfoLevel, [([97, 255], .int 1), ([97, 254], .int 2)], 0⟩).2.1.1 h).2
      (by decide),
   ((Format_jsonKeys_nodup_iff ⟨ascii "h", []⟩ sampleStack
      ⟨ascii "animal", InfoLevel,
        [(ascii "animal", .str (ascii "walrus")), (ascii "facility", .int 2)], 0⟩).2.2
      (by decide)).2 (Or.inl rfl)⟩

/-! ## Error values -/

theorem formatValue_ne_err (v : Value) (d : Bytes) : formatValue v ≠ .err d := by
  cases v <;> simp [formatValue]

theorem formatValue_of_not_err (v : Value) (h : ∀ d, v ≠ .err d) : formatValue v = v := by
  cases v <;> simp_all [formatValue]

theorem no_err_into (f n : Fields) (hn : ∀ x d, mapGet n x ≠ some (.err d)) :
    ∀ x d, mapGet (formatAdditionalfieldsInto n f) x ≠ some (.err d) := by
  induction f generalizing n with
  | nil => simpa [formatAdditionalfieldsInto] using hn
  | cons e rest ih =>
    obtain ⟨k', v'⟩ := e
    simp only [formatAdditionalfieldsInto]
    apply ih
    intro x d
    rw [mapGet_mapSet]
    split_ifs
    · intro h
      exact formatValue_ne_err v' d (Option.some.inj h)
    · exact hn x d

/-- C6: in the map built by `formatAdditionalfields`, a caller field `k` whose
value is an error with text `d` is held at key `_k` as the string `d`; a
value that is not an error is held unchanged; and no value of the map is an
error object. -/
theorem formatAdditionalfields_error_text (f : Fields) (k : Bytes) (hf : WellFormed f) :
    (∀ d, mapGet f k = some (.err d) →
      mapGet (formatAdditionalfields f) (95 :: k) = some (.str d)) ∧
    (∀ v, (∀ d, v ≠ .err d) → mapGet f k = some v →
      mapGet (formatAdditionalfields f) (95 :: k) = some v) ∧
    (∀ x d, mapGet (formatAdditionalfields f) x ≠ some (.err d)) := by
  refine ⟨?_, ?_, ?_⟩
  · intro d h
    exact mapGet_into f [] k (.err d) hf h
  · intro v hv h
    have := mapGet_into f [] k v hf h
    rwa [formatValue_of_not_err v hv] at this
  · exact no_err_into f [] (by simp [mapGet])

/-- A witness of C6: the field of `TestWithErrorAdditionalField`, an error
with text `failed` under the key `err`, is held as the string `failed` under
`_err`. -/
theorem formatAdditionalfields_error_text_witness :
    mapGet (formatAdditionalfields
        [(ascii "err", .err (ascii "failed")), (ascii "animal", .str (ascii "walrus"))])
      (ascii "_err") = some (.str (ascii "failed")) ∧
    mapGet (formatAdditionalfields
        [(ascii "err", .err (ascii "failed")), (ascii "animal", .str (ascii "walrus"))])
      (ascii "_animal") = some (.str (ascii "walrus")) :=
  ⟨(formatAdditionalfields_error_text
      [(ascii "err", .err (ascii "failed")), (ascii "animal", .str (ascii "walrus"))]
      (ascii "err") (by decide)).1 (ascii "failed") (by decide),
   (formatAdditionalfields_error_text
      [(ascii "err", .err (ascii "failed")), (ascii "animal", .str (ascii "walrus"))]
      (ascii "animal") (by decide)).2.1 (.str (ascii "walrus")) (by simp) (by decide)⟩

/-! ## Caller location and severity name -/

/-- C7 fails as stated: an event of level Info (numeric level 6) whose caller
supplied the fields `file` and `line` is written with the keys `_file` and
`_line`. -/
theorem Format_file_line_at_info :
    getLevel InfoLevel = 6 ∧
    ascii "_file" ∈ Format_keys sampleFormatter sampleStack
      ⟨ascii "animal", InfoLevel,
        [(ascii "file", .str (ascii "main.go")), (ascii "line", .int 7)], 0⟩ ∧
    ascii "_line" ∈ Format_keys sampleFormatter sampleStack
      ⟨ascii "animal", InfoLevel,
        [(ascii "file", .str (ascii "main.go")), (ascii "line", .int 7)], 0⟩ := by
  decide

/-- C7, amended: the output of `Format` contains the key `_file` if and only
if the numeric level is below 4 or the caller supplied a field named `file`,
and the key `_line` if and only if the numeric level is below 4 or the caller
supplied a field named `line`. -/
theorem Format_file_line_keys (f : Formatter) (stack : List Frame) (entry : Entry) :
    (ascii "_file" ∈ Format_keys f stack entry ↔
      getLevel entry.Level < 4 ∨ ascii "file" ∈ mapKeys entry.Data) ∧
    (ascii "_line" ∈ Format_keys f stack entry ↔
      getLevel entry.Level < 4 ∨ ascii "line" ∈ mapKeys entry.Data) := by
  have key : ∀ s : String, s = "file" ∨ s = "line" →
      (95 :: ascii s ∈ Format_keys f stack entry ↔
        getLevel entry.Level < 4 ∨ ascii s ∈ mapKeys entry.Data) := by
    intro s hs
    have hsev : ascii s ≠ ascii "severity" := by rcases hs with rfl | rfl <;> decide
    have hfac : ascii s ≠ ascii "facility" := by rcases hs with rfl | rfl <;> decide
    have hfl : ascii s = ascii "file" ∨ ascii s = ascii "line" := by
      rcases hs with rfl | rfl
      · exact Or.inl rfl
      · exact Or.inr rfl
    rw [mem_Format_keys]
    constructor
    · rintro (h | ⟨k, hk, e⟩)
      · exact absurd (underscore_of_mem_messageKeys _ _ h).2 hfac
      · have e' : ascii s = k := (List.cons.inj e).2
        subst e'
        rw [mem_mapKeys_Format_data] at hk
        rcases hk with hk | hk | ⟨hl, _⟩
        · exact Or.inr hk
        · exact absurd hk hsev
        · exact Or.inl hl
    · intro h
      refine Or.inr ⟨ascii s, ?_, rfl⟩
      rw [mem_mapKeys_Format_data]
      rcases h with h | h
      · exact Or.inr (Or.inr ⟨h, hfl⟩)
      · exact Or.inl h
  exact ⟨key "file" (Or.inl rfl), key "line" (Or.inr rfl)⟩

/-- C8: whatever fields the caller supplied, the extra map of the record built
by `Format` holds at key `_severity` the name of the logrus level as a string,
and `_severity` is a key of the output. -/
theorem Format_severity (f : Formatter) (stack : List Frame) (entry : Entry)
    (h : WellFormed entry.Data) :
    mapGet (Format_message f stack entry).Extra (ascii "_severity") =
      some (.str (LevelString entry.Level)) ∧
    ascii "_severity" ∈ Format_keys f stack entry := by
  have hextra : (Format_message f stack entry).Extra =
      formatAdditionalfields (Format_data stack entry) := rfl
  have hget : mapGet (Format_data stack entry) (ascii "severity") =
      some (.str (LevelString entry.Level)) := by
    unfold Format_data
    simp only [mapGet_mapSet, if_true]
  refine ⟨?_, ?_⟩
  · rw [hextra]
    exact mapGet_into _ [] _ _ (WellFormed_Format_data stack entry h) hget
  · rw [mem_Format_keys]
    exact Or.inr ⟨ascii "severity", mem_mapKeys_of_mapGet _ _ _ hget, by decide⟩

/-- A witness of C8: an event of level Warn whose caller supplied a field
named `severity`; the output holds `warning`, not the caller's value. -/
theorem Format_severity_witness :
    mapGet (Format_message sampleFormatter sampleStack
        ⟨ascii "animal", WarnLevel, [(ascii "severity", .int 7)], 0⟩).Extra
      (ascii "_severity") = some (.str (ascii "warning")) ∧
    ascii "_severity" ∈ Format_keys sampleFormatter sampleStack
        ⟨ascii "animal", WarnLevel, [(ascii "severity", .int 7)], 0⟩ :=
  Format_severity sampleFormatter sampleStack
    ⟨ascii "animal", WarnLevel, [(ascii "severity", .int 7)], 0⟩ (by decide)

/-! ## The merge of the two JSON objects -/

theorem intercalate_cons_cons (sep x y : Bytes) (l : List Bytes) :
    List.intercalate sep (x :: y :: l) = x ++ sep ++ List.intercalate sep (y :: l) := by
  simp [List.intercalate, List.intersperse]

theorem intercalate_append (sep : Bytes) (a b : List Bytes) (ha : a ≠ []) (hb : b ≠ []) :
    List.intercalate sep (a ++ b) = List.intercalate sep a ++ sep ++ List.intercalate sep b := by
  induction a with
  | nil => exact absurd rfl ha
  | cons x rest ih =>
    cases rest with
    | nil =>
      cases b with
      | nil => exact absurd rfl hb
      | cons y b' =>
        rw [List.singleton_append, intercalate_cons_cons]
        simp [List.intercalate, List.intersperse]
    | cons x' rest' =>
      have e := ih (by simp)
      rw [List.cons_append, List.cons_append, intercalate_cons_cons, ← List.cons_append, e,
        intercalate_cons_cons]
      simp [List.append_assoc]

theorem slice_all_but_last (x : Bytes) (c : Nat) :
    slice (x ++ [c]) 0 (((x ++ [c]).length : Int) - 1) = some x := by
  unfold slice
  have h : (0 : Int) ≤ 0 ∧ (0 : Int) ≤ ((x ++ [c]).length : Int) - 1 ∧
      ((x ++ [c]).length : Int) - 1 ≤ ((x ++ [c]).length : Int) := by
    simp
  rw [if_pos h]
  have e : ((((x ++ [c]).length : Int) - 1) - 0).toNat = x.length := by simp
  rw [e]
  simp

theorem slice_inside (x : Bytes) (a c : Nat) :
    slice ([a] ++ x ++ [c]) 1 ((([a] ++ x ++ [c]).length : Int) - 1) = some x := by
  unfold slice
  have h : (0 : Int) ≤ 1 ∧ (1 : Int) ≤ (([a] ++ x ++ [c]).length : Int) - 1 ∧
      (([a] ++ x ++ [c]).length : Int) - 1 ≤ (([a] ++ x ++ [c]).length : Int) := by
    simp
  rw [if_pos h]
  have e : (((([a] ++ x ++ [c]).length : Int) - 1) - 1).toNat = x.length := by
    simp only [List.length_append, List.length_singleton, Nat.cast_add, Nat.cast_one]
    omega
  rw [e]
  simp

theorem messageMembers_keys (enc : Encoder) (m : Message) (ts : Bytes) :
    (messageMembers enc m ts).map Member.key = messageKeys m := by
  unfold messageMembers messageKeys
  by_cases h1 : m.Full = [] <;> by_cases h2 : m.Level = 0 <;> by_cases h3 : m.Facility = [] <;>
    simp [h1, h2, h3, fieldMember]

theorem messageMembers_ne_nil (enc : Encoder) (m : Message) (ts : Bytes) :
    messageMembers enc m ts ≠ [] := by
  simp [messageMembers]

theorem mapMembers_keys (enc : Encoder) (f : Fields) (ms : List Member)
    (h : mapMembers enc f = .ok ms) : ms.map Member.key = mapKeys f := by
  induction f generalizing ms with
  | nil =>
    simp only [mapMembers, Except.ok.injEq] at h
    subst h
    rfl
  | cons e rest ih =>
    obtain ⟨k, v⟩ := e
    simp only [mapMembers] at h
    cases hv : enc.value v with
    | error err => simp [hv] at h
    | ok t =>
      cases hr : mapMembers enc rest with
      | error err => simp [hv, hr] at h
      | ok ms' =>
        simp only [hv, hr, Except.ok.injEq] at h
        subst h
        have := ih ms' hr
        simp only [mapKeys] at this
        simp [mapKeys, this]

/-- What `MarshalJSONBuf` appends for a record without `RawExtra` when it
returns a nil error: one JSON object, whose keys are `outputKeys`, and a line
feed. -/
theorem MarshalJSONBuf_object (enc : Encoder) (m : Message) (buf out : Bytes)
    (hraw : m.RawExtra = []) (h : MarshalJSONBuf enc m buf = (out, none)) :
    ∃ ms, ms.map Member.key = outputKeys m ∧ out = buf ++ renderObject ms ++ [10] := by
  unfold MarshalJSONBuf at h
  cases hts : enc.float64 m.TimeUnix with
  | error err => simp [jsonMarshalMessage, hts] at h
  | ok ts =>
    have hb : jsonMarshalMessage enc m = .ok (renderObject (messageMembers enc m ts)) := by
      simp [jsonMarshalMessage, hts]
    have hraw2 : ∀ b, writeRawExtra m b = (b, none) := by
      intro b; simp [writeRawExtra, hraw]
    rw [hb] at h
    simp only [renderObject] at h
    rw [slice_all_but_last] at h
    simp only [hraw2] at h
    by_cases hx : m.Extra = []
    · have hw : ∀ b, writeExtra enc m b = (b, none) := by
        intro b; simp [writeExtra, hx]
      simp only [hw, Prod.mk.injEq, and_true] at h
      refine ⟨messageMembers enc m ts, ?_, ?_⟩
      · simp [outputKeys, hx, sortByKey, mapKeys, messageMembers_keys]
      · rw [← h]; simp [renderObject]
    · have hlen : m.Extra.length > 0 := List.length_pos.mpr hx
      cases hm : mapMembers enc (sortByKey m.Extra) with
      | error err =>
        simp [writeExtra, hlen, jsonMarshalMap, hm] at h
      | ok es =>
        have hes : es ≠ [] := by
          intro h0
          have hk := mapMembers_keys enc _ es hm
          rw [h0] at hk
          have hp := (mapKeys_sortByKey_perm m.Extra).length_eq
          rw [← hk] at hp
          simp only [List.map_nil, List.length_nil, mapKeys, List.length_map] at hp
          exact hx (List.length_eq_zero.mp hp.symm)
        have hw : ∀ b, writeExtra enc m b =
            (b ++ [44] ++ List.intercalate [44] (es.map Member.text), none) := by
          intro b
          simp only [writeExtra, hlen, if_true, jsonMarshalMap, hm, renderObject]
          rw [slice_inside]
        simp only [hw, Prod.mk.injEq, and_true] at h
        refine ⟨messageMembers enc m ts ++ es, ?_, ?_⟩
        · simp [outputKeys, messageMembers_keys, mapMembers_keys enc _ es hm]
        · rw [← h]
          simp only [renderObject, List.map_append]
          rw [intercalate_append [44] _ _ (by simpa using messageMembers_ne_nil enc m ts)
            (by simpa using hes)]
          simp [List.append_assoc]

/-- The bytes `Format` returns are one JSON object, whose keys are
`Format_keys`, and a line feed. -/
theorem Format_object (f : Formatter) (enc : Encoder) (stack : List Frame) (entry : Entry)
    (out : Bytes) (h : Format f enc stack entry = .ok out) :
    ∃ ms, ms.map Member.key = Format_keys f stack entry ∧ out = renderObject ms ++ [10] := by
  unfold Format at h
  cases hm : MarshalJSONBuf enc (Format_message f stack entry) [] with
  | mk b r =>
    cases r with
    | some e => simp [hm] at h
    | none =>
      simp only [hm, Except.ok.injEq] at h
      subst h
      obtain ⟨ms, h1, h2⟩ := MarshalJSONBuf_object enc _ [] b rfl hm
      exact ⟨ms, h1, by simpa using h2⟩

/-- C9, the failing case: for a record without extra fields whose `RawExtra`
is the empty object, `MarshalJSONBuf` returns a nil error, and what it has
appended is the fixed object without its closing brace, then a comma, a
closing brace and a line feed: the object ends in a dangling comma. -/
theorem MarshalJSONBuf_empty_object_rawExtra (enc : Encoder) (m : Message) (buf ts : Bytes)
    (hraw : m.RawExtra = [123, 125]) (hextra : m.Extra = [])
    (hts : enc.float64 m.TimeUnix = .ok ts) :
    MarshalJSONBuf enc m buf =
      (buf ++ [123] ++ List.intercalate [44] ((messageMembers enc m ts).map Member.text)
        ++ [44, 125, 10], none) := by
  have hb : jsonMarshalMessage enc m = .ok (renderObject (messageMembers enc m ts)) := by
    simp [jsonMarshalMessage, hts]
  have hw : ∀ b, writeExtra enc m b = (b, none) := by
    intro b; simp [writeExtra, hextra]
  have hr : ∀ b, writeRawExtra m b = (b ++ [44], none) := by
    intro b
    have e : slice [123, 125] 1 ((([123, 125] : Bytes).length : Int) - 1) = some [] := by decide
    simp only [writeRawExtra, hraw, e]
    simp
  unfold MarshalJSONBuf
  rw [hb]
  simp only [renderObject]
  rw [slice_all_but_last]
  simp only [hw, hr]
  simp [List.append_assoc]

/-- The failing case of C9 on `sampleRecord`: the call returns a nil error
and the buffer holds an object that ends in `,` and a closing brace. -/
theorem MarshalJSONBuf_empty_object_rawExtra_witness :
    MarshalJSONBuf sampleEncoder sampleRecord [] =
      (ascii "\x7b\"version\":\"1.1\",\"host\":\"h\",\"short_message\":\"s\",\"timestamp\":5,\x7d\n",
        none) :=
  MarshalJSONBuf_empty_object_rawExtra sampleEncoder sampleRecord [] [53] rfl rfl rfl

/-! ## A message that begins with a line break -/

/-- C10 fails as stated: the message made of a line feed, `foo`, a line feed
and `bar` is trimmed to `foo`, line feed, `bar`, and `Format` splits it: the
short message is `foo`, not the trimmed message, and the full message is not
empty. -/
theorem Format_leading_break_is_split :
    TrimSpace (ascii "\nfoo\nbar") = ascii "foo\nbar" ∧
    (Format_message sampleFormatter sampleStack
        ⟨ascii "\nfoo\nbar", InfoLevel, [], 0⟩).Short = ascii "foo" ∧
    (Format_message sampleFormatter sampleStack
        ⟨ascii "\nfoo\nbar", InfoLevel, [], 0⟩).Full = ascii "foo\nbar" ∧
    (Format_message sampleFormatter sampleStack
        ⟨ascii "\nfoo\nbar", InfoLevel, [], 0⟩).Short ≠ TrimSpace (ascii "\nfoo\nbar") ∧
    (Format_message sampleFormatter sampleStack
        ⟨ascii "\nfoo\nbar", InfoLevel, [], 0⟩).Full ≠ [] := by
  decide

/-- C10, amended: for a message that begins with a line break, trimming
removes that break, so the message is handled as the rest of it would be: if
the trimmed message holds no line break, the short message is the trimmed
message and the full message is empty; if it holds one, the first is at an
index `i > 0`, the short message is the text before it and the full message
is the trimmed message. -/
theorem Format_leading_break (f : Formatter) (stack : List Frame) (entry : Entry)
    (h : entry.Message.head? = some 10) :
    TrimSpace entry.Message = TrimSpace entry.Message.tail ∧
    (10 ∉ TrimSpace entry.Message →
      (Format_message f stack entry).Short = TrimSpace entry.Message ∧
      (Format_message f stack entry).Full = []) ∧
    (10 ∈ TrimSpace entry.Message →
      ∃ i, 0 < i ∧ (TrimSpace entry.Message).get? i = some 10 ∧
        (∀ j, j < i → (TrimSpace entry.Message).get? j ≠ some 10) ∧
        (Format_message f stack entry).Short = (TrimSpace entry.Message).take i ∧
        (Format_message f stack entry).Full = TrimSpace entry.Message) := by
  refine ⟨?_, ?_, ?_⟩
  · cases hm : entry.Message with
    | nil => rw [hm] at h; simp at h
    | cons a rest =>
      rw [hm] at h
      simp only [List.head?_cons, Option.some.injEq] at h
      subst h
      simpa using TrimSpace_linefeed rest
  · intro hno
    have e := Format_short_full_of_no_break entry.Message hno
    exact ⟨by simp [Format_message, e], by simp [Format_message, e]⟩
  · intro hin
    have hge : 0 ≤ IndexByte (TrimSpace entry.Message) 10 := by
      by_contra hneg
      exact (IndexByte_neg_iff _ 10).1 (by omega) hin
    obtain ⟨hat, hfirst⟩ := IndexByte_spec (TrimSpace entry.Message) 10 hge
    have hpos : 0 < (IndexByte (TrimSpace entry.Message) 10).toNat := by
      rcases Nat.eq_zero_or_pos (IndexByte (TrimSpace entry.Message) 10).toNat with h0 | h0
      · rw [h0] at hat
        cases ht : TrimSpace entry.Message with
        | nil => rw [ht] at hat; simp at hat
        | cons a rest =>
          rw [ht] at hat
          simp only [List.get?_cons_zero, Option.some.injEq] at hat
          subst hat
          have := TrimSpace_head entry.Message 10 rest ht
          exact absurd this (by decide)
      · exact h0
    have e := Format_short_full_of_break entry.Message _ hpos hat hfirst
    exact ⟨_, hpos, hat, hfirst, by simp [Format_message, e], by simp [Format_message, e]⟩

/-- A witness of the amended C10: the message made of a line feed, `foo`, a
line feed and `bar`. -/
theorem Format_leading_break_witness :
    TrimSpace (ascii "\nfoo\nbar") = TrimSpace (ascii "foo\nbar") ∧
    ∃ i, 0 < i ∧ (TrimSpace (ascii "\nfoo\nbar")).get? i = some 10 ∧
      (∀ j, j < i → (TrimSpace (ascii "\nfoo\nbar")).get? j ≠ some 10) ∧
      (Format_message sampleFormatter sampleStack
          ⟨ascii "\nfoo\nbar", InfoLevel, [], 0⟩).Short
        = (TrimSpace (ascii "\nfoo\nbar")).take i ∧
      (Format_message sampleFormatter sampleStack
          ⟨ascii "\nfoo\nbar", InfoLevel, [], 0⟩).Full = TrimSpace (ascii "\nfoo\nbar") :=
  ⟨(Format_leading_break sampleFormatter sampleStack
      ⟨ascii "\nfoo\nbar", InfoLevel, [], 0⟩ (by decide)).1,
   (Format_leading_break sampleFormatter sampleStack
      ⟨ascii "\nfoo\nbar", InfoLevel, [], 0⟩ (by decide)).2.2 (by decide)⟩

/-! ## Empty short messages -/

theorem TrimLeftSpace_of_asciiSpace (s : Bytes) (h : ∀ b, b ∈ s → asciiSpace b = true) :
    TrimLeftSpace s = [] := by
  induction s using TrimLeftSpace.induct <;> simp_all [TrimLeftSpace]

theorem TrimSpace_of_asciiSpace (s : Bytes) (h : ∀ b, b ∈ s → asciiSpace b = true) :
    TrimSpace s = [] := by
  simp [TrimSpace, TrimLeftSpace_of_asciiSpace s h, TrimRightSpace, dropSpaceRev]

theorem Format_short_full_fst_eq_nil_iff (message : Bytes) :
    (Format_short_full message).1 = [] ↔ TrimSpace message = [] := by
  constructor
  · intro h
    by_contra hne
    simp only [Format_short_full] at h
    split_ifs at h with hi
    · simp only [List.take_eq_nil_iff] at h
      rcases h with h | h
      · simp only [IndexRune] at hi h
        omega
      · exact hne h
    · exact hne h
  · intro h
    simp [Format_short_full, h, IndexRune, IndexByte]

/-- C11 fails as stated: the message made of one space is not empty, and its
short message is empty. -/
theorem Format_short_empty_of_blank :
    ascii " " ≠ [] ∧
    (Format_message sampleFormatter sampleStack ⟨ascii " ", InfoLevel, [], 0⟩).Short = [] ∧
    ascii "\n\t " ≠ [] ∧
    (Format_message sampleFormatter sampleStack ⟨ascii "\n\t ", InfoLevel, [], 0⟩).Short = [] := by
  decide

/-- C11, amended: the short message is empty if and only if the trimmed
message is empty; that is the case for the empty message and for every message
made of white space only, and for every message whose trimmed form is not
empty the short message is not empty. -/
theorem Format_short_empty_iff (f : Formatter) (stack : List Frame) (entry : Entry) :
    ((Format_message f stack entry).Short = [] ↔ TrimSpace entry.Message = []) ∧
    (TrimSpace entry.Message ≠ [] → (Format_message f stack entry).Short ≠ []) ∧
    ((∀ b, b ∈ entry.Message → asciiSpace b = true) →
      (Format_message f stack entry).Short = []) := by
  have hiff : (Format_message f stack entry).Short = [] ↔ TrimSpace entry.Message = [] :=
    Format_short_full_fst_eq_nil_iff entry.Message
  refine ⟨hiff, ?_, ?_⟩
  · intro hne h
    exact hne (hiff.1 h)
  · intro h
    exact hiff.2 (TrimSpace_of_asciiSpace _ h)

/-- A witness of the amended C11: a message of spaces has an empty short
message, and the message ` a ` has a short message that is not empty. -/
theorem Format_short_empty_iff_witness :
    (Format_message sampleFormatter sampleStack ⟨ascii "  ", InfoLevel, [], 0⟩).Short = [] ∧
    (Format_message sampleFormatter sampleStack ⟨ascii " a ", InfoLevel, [], 0⟩).Short ≠ [] :=
  ⟨(Format_short_empty_iff sampleFormatter sampleStack ⟨ascii "  ", InfoLevel, [], 0⟩).2.2
      (by decide),
   (Format_short_empty_iff sampleFormatter sampleStack ⟨ascii " a ", InfoLevel, [], 0⟩).2.1
      (by decide)⟩

/-! ## The test `i > 0` -/

theorem IndexByte_eq_zero (s : Bytes) (c : Nat) (h : IndexByte s c = 0) :
    ∃ rest, s = c :: rest := by
  cases s with
  | nil => simp [IndexByte] at h
  | cons a rest =>
    have hge := IndexByte_ge rest c
    simp only [IndexByte] at h
    split_ifs at h with h1 h2
    · exact ⟨rest, by rw [h1]⟩
    · omega

theorem IndexRune_TrimSpace_ne_zero (m : Bytes) : IndexRune (TrimSpace m) 10 ≠ 0 := by
  intro h
  obtain ⟨rest, hr⟩ := IndexByte_eq_zero _ _ h
  have := TrimSpace_head m 10 rest hr
  exact absurd this (by decide)

/-- C18: the trimmed message never has a line break at index 0, so its first
line break, when there is one, is at an index above 0, and the test `i > 0`
of `Format` gives the same short and full message as the test `i >= 0` on
every message. -/
theorem Format_short_full_eq_ge (m : Bytes) :
    IndexRune (TrimSpace m) 10 ≠ 0 ∧
    (TrimSpace m).head? ≠ some 10 ∧
    (10 ∈ TrimSpace m → 0 < IndexRune (TrimSpace m) 10) ∧
    Format_short_full m = Format_short_full_ge m := by
  have h0 := IndexRune_TrimSpace_ne_zero m
  refine ⟨h0, ?_, ?_, ?_⟩
  · intro hh
    cases ht : TrimSpace m with
    | nil => rw [ht] at hh; simp at hh
    | cons a rest =>
      rw [ht] at hh
      simp only [List.head?_cons, Option.some.injEq] at hh
      subst hh
      exact absurd (TrimSpace_head m 10 rest ht) (by decide)
  · intro hin
    have hge : ¬ IndexByte (TrimSpace m) 10 < 0 := fun hneg =>
      (IndexByte_neg_iff _ 10).1 hneg hin
    simp only [IndexRune] at h0 ⊢
    omega
  · simp only [Format_short_full, Format_short_full_ge]
    by_cases hpos : IndexRune (TrimSpace m) 10 > 0
    · have hge : IndexRune (TrimSpace m) 10 ≥ 0 := by omega
      simp [hpos, hge]
    · have hge : ¬ IndexRune (TrimSpace m) 10 ≥ 0 := by omega
      simp [hpos, hge]

/-! ## Optional fixed fields -/

/-- C15: among the members that `json.Marshal` writes for the fixed fields of
a record, `version`, `host`, `short_message` and `timestamp` are always
present, `full_message` is present if and only if the full message is not
empty, `level` if and only if the level is not zero, `_facility` if and only
if the facility is not empty; and the output for an event of level Panic has
no key `level`. -/
theorem messageMembers_omitempty (enc : Encoder) (m : Message) (ts : Bytes) :
    ascii "version" ∈ (messageMembers enc m ts).map Member.key ∧
    ascii "host" ∈ (messageMembers enc m ts).map Member.key ∧
    ascii "short_message" ∈ (messageMembers enc m ts).map Member.key ∧
    ascii "timestamp" ∈ (messageMembers enc m ts).map Member.key ∧
    (ascii "full_message" ∈ (messageMembers enc m ts).map Member.key ↔ m.Full ≠ []) ∧
    (ascii "level" ∈ (messageMembers enc m ts).map Member.key ↔ m.Level ≠ 0) ∧
    (ascii "_facility" ∈ (messageMembers enc m ts).map Member.key ↔ m.Facility ≠ []) ∧
    ∀ (f : Formatter) (stack : List Frame) (message : Bytes) (data : Fields) (time : Int),
      getLevel PanicLevel = 0 ∧
      ascii "level" ∉ Format_keys f stack ⟨message, PanicLevel, data, time⟩ := by
  rw [messageMembers_keys]
  refine ⟨(mem_messageKeys m _).2 (Or.inl rfl), (mem_messageKeys m _).2 (Or.inr (Or.inl rfl)),
    (mem_messageKeys m _).2 (Or.inr (Or.inr (Or.inl rfl))),
    (mem_messageKeys m _).2 (Or.inr (Or.inr (Or.inr (Or.inr (Or.inl rfl))))), ?_, ?_, ?_, ?_⟩
  · rw [mem_messageKeys]
    constructor
    · rintro (h | h | h | h | h | h | h)
      · exact absurd h (by decide)
      · exact absurd h (by decide)
      · exact absurd h (by decide)
      · exact h.1
      · exact absurd h (by decide)
      · exact absurd h.2 (by decide)
      · exact absurd h.2 (by decide)
    · intro h
      exact Or.inr (Or.inr (Or.inr (Or.inl ⟨h, rfl⟩)))
  · rw [mem_messageKeys]
    constructor
    · rintro (h | h | h | h | h | h | h)
      · exact absurd h (by decide)
      · exact absurd h (by decide)
      · exact absurd h (by decide)
      · exact absurd h.2 (by decide)
      · exact absurd h (by decide)
      · exact h.1
      · exact absurd h.2 (by decide)
    · intro h
      exact Or.inr (Or.inr (Or.inr (Or.inr (Or.inr (Or.inl ⟨h, rfl⟩)))))
  · rw [mem_messageKeys]
    constructor
    · rintro (h | h | h | h | h | h | h)
      · exact absurd h (by decide)
      · exact absurd h (by decide)
      · exact absurd h (by decide)
      · exact absurd h.2 (by decide)
      · exact absurd h (by decide)
      · exact absurd h.2 (by decide)
      · exact h.1
    · intro h
      exact Or.inr (Or.inr (Or.inr (Or.inr (Or.inr (Or.inr ⟨h, rfl⟩)))))
  · intro f stack message data time
    refine ⟨by decide, ?_⟩
    rw [mem_Format_keys, mem_messageKeys]
    have hlevel : (Format_message f stack ⟨message, PanicLevel, data, time⟩).Level = 0 := by
      simp only [Format_message]; decide
    rintro (h | ⟨k, _, hk⟩)
    · rcases h with h | h | h | h | h | h | h
      · exact absurd h (by decide)
      · exact absurd h (by decide)
      · exact absurd h (by decide)
      · exact absurd h.2 (by decide)
      · exact absurd h (by decide)
      · exact h.1 hlevel
      · exact absurd h.2 (by decide)
    · have h108 : (ascii "level").head? = some 108 := by decide
      have := congrArg List.head? hk
      rw [h108] at this
      simp at this

/-- A witness of C18: in the message made of a line feed, `foo`, a line feed
and `bar`, the first line break of the trimmed message is at an index above
0. -/
theorem Format_short_full_eq_ge_witness :
    0 < IndexRune (TrimSpace (ascii "\nfoo\nbar")) 10 :=
  (Format_short_full_eq_ge (ascii "\nfoo\nbar")).2.2.1 (by decide)

/-! ## The key set of the extra map -/

theorem mapSet_of_not_mem (n : Fields) (k : Bytes) (v : Value) (h : k ∉ mapKeys n) :
    mapSet n k v = n ++ [(k, v)] := by
  induction n with
  | nil => rfl
  | cons e rest ih =>
    obtain ⟨k', v'⟩ := e
    simp only [mapKeys, List.map_cons, List.mem_cons, not_or] at h
    have hne : ¬ k' = k := fun e => h.1 e.symm
    simp only [mapSet, hne, if_false, List.cons_append]
    rw [ih (by simpa [mapKeys] using h.2)]

theorem formatAdditionalfieldsInto_eq (f n : Fields) (hf : WellFormed f)
    (hn : ∀ k, k ∈ mapKeys f → 95 :: k ∉ mapKeys n) :
    formatAdditionalfieldsInto n f = n ++ f.map (fun e => (95 :: e.1, formatValue e.2)) := by
  induction f generalizing n with
  | nil => simp [formatAdditionalfieldsInto]
  | cons e rest ih =>
    obtain ⟨k, v⟩ := e
    have hnd : k ∉ mapKeys rest ∧ WellFormed rest := by
      simpa [WellFormed, mapKeys] using hf
    have hk : 95 :: k ∉ mapKeys n := hn k (by simp [mapKeys])
    simp only [formatAdditionalfieldsInto]
    rw [mapSet_of_not_mem n _ _ hk, ih _ hnd.2]
    · simp
    · intro k' hk' hmem
      have hmem' : 95 :: k' ∈ mapKeys n ∨ 95 :: k' = 95 :: k := by
        simpa [mapKeys] using hmem
      rcases hmem' with h | h
      · exact hn k' (by simp only [mapKeys, List.map_cons, List.mem_cons] at hk' ⊢
                        exact Or.inr hk') h
      · have e : k' = k := (List.cons.inj h).2
        rw [e] at hk'
        exact hnd.1 hk'

theorem formatAdditionalfields_eq_map (f : Fields) (hf : WellFormed f) :
    formatAdditionalfields f = f.map (fun e => (95 :: e.1, formatValue e.2)) := by
  unfold formatAdditionalfields
  rw [formatAdditionalfieldsInto_eq f [] hf (by simp [mapKeys])]
  simp

/-- C16: for a map `f` with distinct keys, `formatAdditionalfields` yields one
entry per entry of `f`: the key `k` becomes `_k` and the value `v` becomes
`formatValue v`.  So the keys of the result are the keys of `f` behind an
underscore, each key of the result starts with an underscore, the result has
as many entries as `f`, its keys are distinct, and the value at `_k` is
computed from the value at `k` alone. -/
theorem formatAdditionalfields_key_set (f : Fields) (hf : WellFormed f) :
    formatAdditionalfields f = f.map (fun e => (95 :: e.1, formatValue e.2)) ∧
    (∀ x, x ∈ mapKeys (formatAdditionalfields f) ↔ ∃ k, k ∈ mapKeys f ∧ x = 95 :: k) ∧
    (∀ x, x ∈ mapKeys (formatAdditionalfields f) → x.head? = some 95) ∧
    (formatAdditionalfields f).length = f.length ∧
    WellFormed (formatAdditionalfields f) ∧
    (∀ k v, mapGet f k = some v →
      mapGet (formatAdditionalfields f) (95 :: k) = some (formatValue v)) := by
  refine ⟨formatAdditionalfields_eq_map f hf, mem_mapKeys_formatAdditionalfields f, ?_, ?_,
    WellFormed_formatAdditionalfields f, ?_⟩
  · intro x hx
    obtain ⟨k, _, rfl⟩ := (mem_mapKeys_formatAdditionalfields f x).1 hx
    rfl
  · rw [formatAdditionalfields_eq_map f hf, List.length_map]
  · intro k v hk
    exact mapGet_into f [] k v hf hk

/-- A witness of C16: a map of three entries, one of them already behind an
underscore and one an error. -/
theorem formatAdditionalfields_key_set_witness :
    formatAdditionalfields
        [(ascii "animal", .str (ascii "walrus")), (ascii "_animal", .int 1),
          (ascii "err", .err (ascii "failed"))] =
      [(ascii "_animal", .str (ascii "walrus")), (ascii "__animal", .int 1),
        (ascii "_err", .str (ascii "failed"))] :=
  (formatAdditionalfields_key_set
    [(ascii "animal", .str (ascii "walrus")), (ascii "_animal", .int 1),
      (ascii "err", .err (ascii "failed"))] (by decide)).1

/-! ## What `Format` changes in the entry -/

theorem mapSet_of_mapGet (f : Fields) (k : Bytes) (v : Value) (h : mapGet f k = some v) :
    mapSet f k v = f := by
  induction f with
  | nil => simp [mapGet] at h
  | cons e rest ih =>
    obtain ⟨k', v'⟩ := e
    simp only [mapGet] at h
    simp only [mapSet]
    by_cases hk : k' = k
    · simp only [hk, if_true, Option.some.injEq] at h
      simp [hk, h]
    · simp only [hk, if_false] at h
      simp [hk, ih h]

theorem Format_data_severity (stack : List Frame) (entry : Entry) :
    mapGet (Format_data stack entry) (ascii "severity") =
      some (.str (LevelString entry.Level)) := by
  unfold Format_data
  simp only [mapGet_mapSet, if_true]

theorem Format_data_file_line (stack : List Frame) (entry : Entry)
    (h : getLevel entry.Level < LOG_WARNING) :
    mapGet (Format_data stack entry) (ascii "file") =
      some (.str (getCallerIgnoringLogMulti stack 1).1) ∧
    mapGet (Format_data stack entry) (ascii "line") =
      some (.int (getCallerIgnoringLogMulti stack 1).2) := by
  unfold Format_data
  have h1 : ascii "file" ≠ ascii "severity" := by decide
  have h2 : ascii "line" ≠ ascii "severity" := by decide
  have h3 : ascii "file" ≠ ascii "line" := by decide
  simp only [h, if_true, mapGet_mapSet, h1, h2, h3, if_false]
  exact ⟨trivial, trivial⟩

theorem Format_data_other (stack : List Frame) (entry : Entry) (k : Bytes)
    (hsev : k ≠ ascii "severity")
    (hfl : getLevel entry.Level < LOG_WARNING → k ≠ ascii "file" ∧ k ≠ ascii "line") :
    mapGet (Format_data stack entry) k = mapGet entry.Data k := by
  unfold Format_data
  by_cases h : getLevel entry.Level < LOG_WARNING
  · obtain ⟨h1, h2⟩ := hfl h
    simp only [h, if_true, mapGet_mapSet, hsev, h1, h2, if_false]
  · simp only [h, if_false, mapGet_mapSet, hsev]

/-- C17: after `Format` the map of the entry holds the name of the level at
`severity` and, when the numeric level is below 4, the file and the line of
the caller at `file` and `line`; every other key has the value it had, every
key that was there is still there, and the message, the level and the time of
the entry are as they were. -/
theorem Format_entry_frame (stack : List Frame) (entry : Entry) :
    mapGet (Format_entry stack entry).Data (ascii "severity") =
      some (.str (LevelString entry.Level)) ∧
    (getLevel entry.Level < 4 →
      mapGet (Format_entry stack entry).Data (ascii "file") =
        some (.str (getCallerIgnoringLogMulti stack 1).1) ∧
      mapGet (Format_entry stack entry).Data (ascii "line") =
        some (.int (getCallerIgnoringLogMulti stack 1).2)) ∧
    (∀ k, k ≠ ascii "severity" →
      (getLevel entry.Level < 4 → k ≠ ascii "file" ∧ k ≠ ascii "line") →
      mapGet (Format_entry stack entry).Data k = mapGet entry.Data k) ∧
    (∀ k, k ∈ mapKeys entry.Data → k ∈ mapKeys (Format_entry stack entry).Data) ∧
    (Format_entry stack entry).Message = entry.Message ∧
    (Format_entry stack entry).Level = entry.Level ∧
    (Format_entry stack entry).Time = entry.Time := by
  refine ⟨Format_data_severity stack entry, Format_data_file_line stack entry,
    Format_data_other stack entry, ?_, rfl, rfl, rfl⟩
  intro k hk
  exact (mem_mapKeys_Format_data stack entry k).2 (Or.inl hk)

/-- A witness of C17: an event of level Error with the caller fields `animal`
and `severity`; the caller is the frame of the application at line 12. -/
theorem Format_entry_frame_witness :
    (Format_entry sampleStack
        ⟨ascii "gimmick", ErrorLevel,
          [(ascii "animal", .str (ascii "walrus")), (ascii "severity", .int 7)], 0⟩).Data =
      [(ascii "animal", .str (ascii "walrus")), (ascii "severity", .str (ascii "error")),
        (ascii "file", .str (ascii "/app/main.go")), (ascii "line", .int 12)] ∧
    mapGet (Format_entry sampleStack
        ⟨ascii "gimmick", ErrorLevel,
          [(ascii "animal", .str (ascii "walrus")), (ascii "severity", .int 7)], 0⟩).Data
      (ascii "file") = some (.str (ascii "/app/main.go")) ∧
    mapGet (Format_entry sampleStack
        ⟨ascii "gimmick", ErrorLevel,
          [(ascii "animal", .str (ascii "walrus")), (ascii "severity", .int 7)], 0⟩).Data
      (ascii "animal") = some (.str (ascii "walrus")) :=
  ⟨by decide,
   ((Format_entry_frame sampleStack
      ⟨ascii "gimmick", ErrorLevel,
        [(ascii "animal", .str (ascii "walrus")), (ascii "severity", .int 7)], 0⟩).2.1
      (by decide)).1,
   (Format_entry_frame sampleStack
      ⟨ascii "gimmick", ErrorLevel,
        [(ascii "animal", .str (ascii "walrus")), (ascii "severity", .int 7)], 0⟩).2.2.1
      (ascii "animal") (by decide) (fun _ => by decide)⟩

/-! ## A second call on the same entry -/

theorem Format_data_idempotent (stack : List Frame) (entry : Entry) :
    Format_data stack (Format_entry stack entry) = Format_data stack entry := by
  have hsev := Format_data_severity stack entry
  have hunfold : Format_data stack (Format_entry stack entry) =
      mapSet
        (if getLevel entry.Level < LOG_WARNING then
          mapSet (mapSet (Format_data stack entry) (ascii "file")
            (.str (getCallerIgnoringLogMulti stack 1).1)) (ascii "line")
            (.int (getCallerIgnoringLogMulti stack 1).2)
        else Format_data stack entry)
        (ascii "severity") (.str (LevelString entry.Level)) := rfl
  rw [hunfold]
  by_cases h : getLevel entry.Level < LOG_WARNING
  · obtain ⟨hfile, hline⟩ := Format_data_file_line stack entry h
    simp only [h, if_true]
    rw [mapSet_of_mapGet _ _ _ hfile, mapSet_of_mapGet _ _ _ hline, mapSet_of_mapGet _ _ _ hsev]
  · simp only [h, if_false]
    rw [mapSet_of_mapGet _ _ _ hsev]

/-- C19: a second call of `Format` on the entry as the first call left it,
with the same formatter, encoder and call stack, builds the same record and
returns the same bytes (or the same failure) as the first call, and leaves
the entry as the first call left it. -/
theorem Format_twice (f : Formatter) (enc : Encoder) (stack : List Frame) (entry : Entry) :
    Format_message f stack (Format_entry stack entry) = Format_message f stack entry ∧
    Format f enc stack (Format_entry stack entry) = Format f enc stack entry ∧
    Format_entry stack (Format_entry stack entry) = Format_entry stack entry := by
  have hd := Format_data_idempotent stack entry
  have hm : Format_message f stack (Format_entry stack entry) = Format_message f stack entry := by
    simp only [Format_message, hd]
    rfl
  refine ⟨hm, ?_, ?_⟩
  · simp only [Format, hm]
  · have hu : Format_entry stack (Format_entry stack entry) =
        { Format_entry stack entry with Data := Format_data stack (Format_entry stack entry) } :=
      rfl
    rw [hu, hd]
    rfl

/-! ## The bytes of the merge and the bounds of its slices -/

theorem slice_dropLast (b : Bytes) (h : 1 ≤ b.length) :
    slice b 0 ((b.length : Int) - 1) = some b.dropLast := by
  unfold slice
  have hc : (0 : Int) ≤ 0 ∧ (0 : Int) ≤ (b.length : Int) - 1 ∧
      (b.length : Int) - 1 ≤ (b.length : Int) := by omega
  rw [if_pos hc, List.dropLast_eq_take]
  have e : (((b.length : Int) - 1) - 0).toNat = b.length - 1 := by omega
  rw [e]
  simp

theorem slice_tail_dropLast (b : Bytes) (h : 2 ≤ b.length) :
    slice b 1 ((b.length : Int) - 1) = some b.tail.dropLast := by
  unfold slice
  have hc : (0 : Int) ≤ 1 ∧ (1 : Int) ≤ (b.length : Int) - 1 ∧
      (b.length : Int) - 1 ≤ (b.length : Int) := by omega
  rw [if_pos hc, List.dropLast_eq_take]
  have e : (((b.length : Int) - 1) - 1).toNat = b.tail.length - 1 := by
    simp only [List.length_tail]; omega
  rw [e]
  simp

theorem slice_of_length_one (b : Bytes) (h : b.length = 1) :
    slice b 1 ((b.length : Int) - 1) = none := by
  unfold slice
  have hc : ¬ ((0 : Int) ≤ 1 ∧ (1 : Int) ≤ (b.length : Int) - 1 ∧
      (b.length : Int) - 1 ≤ (b.length : Int)) := by omega
  rw [if_neg hc]

theorem renderObject_length (ms : List Member) : 2 ≤ (renderObject ms).length := by
  simp only [renderObject, List.length_append, List.length_singleton]
  omega

theorem renderObject_dropLast (ms : List Member) :
    (renderObject ms).dropLast ++ [125] = renderObject ms := by
  rw [renderObject, List.dropLast_concat]

theorem jsonMarshalMessage_length (enc : Encoder) (m : Message) (F : Bytes)
    (h : jsonMarshalMessage enc m = .ok F) : 2 ≤ F.length ∧ F.dropLast ++ [125] = F := by
  unfold jsonMarshalMessage at h
  cases hts : enc.float64 m.TimeUnix with
  | error err => simp [hts] at h
  | ok ts =>
    simp only [hts, Except.ok.injEq] at h
    subst h
    exact ⟨renderObject_length _, renderObject_dropLast _⟩

theorem jsonMarshalMap_length (enc : Encoder) (f : Fields) (e : Bytes)
    (h : jsonMarshalMap enc f = .ok e) : 2 ≤ e.length := by
  unfold jsonMarshalMap at h
  cases hm : mapMembers enc (sortByKey f) with
  | error err => simp [hm] at h
  | ok ms =>
    simp only [hm, Except.ok.injEq] at h
    subst h
    exact renderObject_length _

theorem writeExtra_of_extraJSON (enc : Encoder) (m : Message) (b : Bytes) :
    (∀ err, extraJSON enc m = .error err → writeExtra enc m b = (b, some (.encode err))) ∧
    (extraJSON enc m = .ok none → writeExtra enc m b = (b, none)) ∧
    (∀ e, extraJSON enc m = .ok (some e) →
      writeExtra enc m b = (b ++ [44] ++ e.tail.dropLast, none)) := by
  unfold extraJSON writeExtra
  by_cases hx : m.Extra = []
  · simp [hx]
  · have hlen : m.Extra.length > 0 := List.length_pos.mpr hx
    cases hm : jsonMarshalMap enc m.Extra with
    | error err => simp [hx, hlen]
    | ok e =>
      have h2 := jsonMarshalMap_length enc _ e hm
      simp [hx, hlen, slice_tail_dropLast e h2]

theorem writeRawExtra_cases (m : Message) (b : Bytes) :
    (m.RawExtra = [] → writeRawExtra m b = (b, none)) ∧
    (m.RawExtra.length = 1 → writeRawExtra m b = (b ++ [44], some .sliceBounds)) ∧
    (2 ≤ m.RawExtra.length →
      writeRawExtra m b = (b ++ [44] ++ m.RawExtra.tail.dropLast, none)) := by
  unfold writeRawExtra
  refine ⟨?_, ?_, ?_⟩
  · intro h; simp [h]
  · intro h
    have hpos : m.RawExtra.length > 0 := by omega
    simp only [hpos, if_true, slice_of_length_one _ h]
  · intro h
    have hpos : m.RawExtra.length > 0 := by omega
    simp only [hpos, if_true, slice_tail_dropLast _ h]

/-- The four ways `MarshalJSONBuf` can end. -/
theorem MarshalJSONBuf_cases (enc : Encoder) (m : Message) (buf : Bytes) :
    (∃ err, jsonMarshalMessage enc m = .error err ∧
      MarshalJSONBuf enc m buf = (buf, some (.encode err))) ∨
    (∃ F err, jsonMarshalMessage enc m = .ok F ∧ extraJSON enc m = .error err ∧
      MarshalJSONBuf enc m buf = (buf ++ F.dropLast, some (.encode err))) ∨
    (∃ F E, jsonMarshalMessage enc m = .ok F ∧ extraJSON enc m = .ok E ∧
      m.RawExtra.length = 1 ∧ (MarshalJSONBuf enc m buf).2 = some .sliceBounds) ∨
    (∃ F E, jsonMarshalMessage enc m = .ok F ∧ extraJSON enc m = .ok E ∧
      m.RawExtra.length ≠ 1 ∧
      MarshalJSONBuf enc m buf = (buf ++ mergedBytes F E m.RawExtra, none)) := by
  cases hF : jsonMarshalMessage enc m with
  | error err =>
    left
    exact ⟨err, rfl, by simp [MarshalJSONBuf, hF]⟩
  | ok F =>
    right
    have hlen := (jsonMarshalMessage_length enc m F hF).1
    have hhead : slice F 0 ((F.length : Int) - 1) = some F.dropLast :=
      slice_dropLast F (by omega)
    obtain ⟨hw1, hw2, hw3⟩ := writeExtra_of_extraJSON enc m (buf ++ F.dropLast)
    cases hE : extraJSON enc m with
    | error err =>
      left
      refine ⟨F, err, rfl, rfl, ?_⟩
      simp [MarshalJSONBuf, hF, hhead, hw1 err hE]
    | ok E =>
      right
      have hw : writeExtra enc m (buf ++ F.dropLast) =
          (buf ++ F.dropLast ++ extraPart E, none) := by
        cases E with
        | none => simpa [extraPart] using hw2 hE
        | some e => simpa [extraPart, List.append_assoc] using hw3 e hE
      obtain ⟨hr1, hr2, hr3⟩ := writeRawExtra_cases m (buf ++ F.dropLast ++ extraPart E)
      by_cases h1 : m.RawExtra.length = 1
      · left
        refine ⟨F, E, rfl, rfl, h1, ?_⟩
        simp only [MarshalJSONBuf, hF, hhead, hw, hr2 h1]
      · right
        refine ⟨F, E, rfl, rfl, h1, ?_⟩
        by_cases h0 : m.RawExtra = []
        · simp only [MarshalJSONBuf, hF, hhead, hw, hr1 h0, mergedBytes, h0, if_true]
          simp [List.append_assoc]
        · have h2 : 2 ≤ m.RawExtra.length := by
            have : 0 < m.RawExtra.length := List.length_pos.mpr h0
            omega
          simp only [MarshalJSONBuf, hF, hhead, hw, hr3 h2, mergedBytes, h0, if_false]
          simp [List.append_assoc]

/-- C13 fails as stated: for the record whose `RawExtra` is the single byte
of an opening brace, both calls of `json.Marshal` succeed, and `MarshalJSONBuf`
panics on the slice of `RawExtra` after it has written the comma: the buffer
does not end with a closing brace and a line feed, and the call does not
return what the description gives. -/
theorem MarshalJSONBuf_one_byte_rawExtra :
    jsonMarshalMessage sampleEncoder sampleRecordOneByte =
      .ok (ascii "\x7b\"version\":\"1.1\",\"host\":\"h\",\"short_message\":\"s\",\"timestamp\":5\x7d") ∧
    extraJSON sampleEncoder sampleRecordOneByte = .ok none ∧
    sampleRecordOneByte.RawExtra = [123] ∧
    MarshalJSONBuf sampleEncoder sampleRecordOneByte [] =
      (ascii "\x7b\"version\":\"1.1\",\"host\":\"h\",\"short_message\":\"s\",\"timestamp\":5,",
        some .sliceBounds) ∧
    MarshalJSONBuf sampleEncoder sampleRecordOneByte [] ≠
      ([] ++ mergedBytes
        (ascii "\x7b\"version\":\"1.1\",\"host\":\"h\",\"short_message\":\"s\",\"timestamp\":5\x7d")
        none [123], none) :=
  ⟨rfl, rfl, rfl, by decide, by decide⟩

/-- C13, amended: when the two calls of `json.Marshal` succeed, with `F` the
text of the fixed fields and `E` the text of the extra map, and `RawExtra` is
not a single byte, `MarshalJSONBuf` returns a nil error and has appended `F`
without its last byte, then a comma and `E` without its first and last byte
when the extra map is not empty, then a comma and `RawExtra` without its
first and last byte when `RawExtra` is not empty, then a closing brace and a
line feed.  Whenever the call returns a nil error, what it has appended is of
that form and ends with a closing brace and a line feed; and without extra
fields and `RawExtra` it is `F` and a line feed. -/
theorem MarshalJSONBuf_merged (enc : Encoder) (m : Message) (buf : Bytes) :
    (∀ F E, jsonMarshalMessage enc m = .ok F → extraJSON enc m = .ok E →
      m.RawExtra.length ≠ 1 →
      MarshalJSONBuf enc m buf = (buf ++ mergedBytes F E m.RawExtra, none)) ∧
    (∀ out, MarshalJSONBuf enc m buf = (out, none) →
      ∃ F E, jsonMarshalMessage enc m = .ok F ∧ extraJSON enc m = .ok E ∧
        out = buf ++ mergedBytes F E m.RawExtra ∧ ∃ pre, out = pre ++ [125, 10]) ∧
    (∀ F, jsonMarshalMessage enc m = .ok F → m.Extra = [] → m.RawExtra = [] →
      MarshalJSONBuf enc m buf = (buf ++ F ++ [10], none)) := by
  have hfirst : ∀ F E, jsonMarshalMessage enc m = .ok F → extraJSON enc m = .ok E →
      m.RawExtra.length ≠ 1 →
      MarshalJSONBuf enc m buf = (buf ++ mergedBytes F E m.RawExtra, none) := by
    intro F E hF hE hlen
    rcases MarshalJSONBuf_cases enc m buf with
      ⟨err, h1, _⟩ | ⟨F', err, _, h2, _⟩ | ⟨F', E', _, _, h3, _⟩ | ⟨F', E', h1, h2, _, h4⟩
    · rw [hF] at h1; exact Except.noConfusion h1
    · rw [hE] at h2; exact Except.noConfusion h2
    · exact absurd h3 hlen
    · rw [hF] at h1
      rw [hE] at h2
      cases h1
      cases h2
      exact h4
  refine ⟨hfirst, ?_, ?_⟩
  · intro out hout
    rcases MarshalJSONBuf_cases enc m buf with
      ⟨err, _, h⟩ | ⟨F', err, _, _, h⟩ | ⟨F', E', _, _, _, h⟩ | ⟨F', E', h1, h2, _, h4⟩
    · rw [hout] at h; simp at h
    · rw [hout] at h; simp at h
    · rw [hout] at h; simp at h
    · rw [hout] at h4
      have e : out = buf ++ mergedBytes F' E' m.RawExtra := (Prod.mk.inj h4).1
      refine ⟨F', E', h1, h2, e, ?_⟩
      refine ⟨buf ++ F'.dropLast ++ extraPart E' ++
        (if m.RawExtra = [] then [] else [44] ++ m.RawExtra.tail.dropLast), ?_⟩
      rw [e]
      simp [mergedBytes, List.append_assoc]
  · intro F hF hx hr
    have hE : extraJSON enc m = .ok none := by simp [extraJSON, hx]
    have hlen : m.RawExtra.length ≠ 1 := by simp [hr]
    rw [hfirst F none hF hE hlen]
    have hd := (jsonMarshalMessage_length enc m F hF).2
    have e : mergedBytes F none m.RawExtra = F.dropLast ++ [125] ++ [10] := by
      simp [mergedBytes, extraPart, hr]
    rw [e, hd, List.append_assoc]

/-- A witness of C13: a record with one extra field and a `RawExtra` of one
member. -/
theorem MarshalJSONBuf_merged_witness :
    MarshalJSONBuf sampleEncoder sampleRecordRaw [] =
      (ascii "\x7b\"version\":\"1.1\",\"host\":\"h\",\"short_message\":\"s\",\"timestamp\":5,\"level\":6,\"_k\":1,\"a\":2\x7d\n",
        none) :=
  (MarshalJSONBuf_merged sampleEncoder sampleRecordRaw []).1
    (ascii "\x7b\"version\":\"1.1\",\"host\":\"h\",\"short_message\":\"s\",\"timestamp\":5,\"level\":6\x7d")
    (some (ascii "\x7b\"_k\":1\x7d")) rfl rfl (by decide)

/-- C20: the slice of the text of the fixed fields and the slice of the text
of the extra map are always within bounds, since an object has at least its
two braces; the slice of `RawExtra` is within bounds when `RawExtra` has two
bytes or more and out of bounds when it has one byte; so `MarshalJSONBuf`
never panics on a record whose `RawExtra` is empty or at least two bytes
long, and it panics exactly when `RawExtra` has one byte and the two calls of
`json.Marshal` have succeeded. -/
theorem MarshalJSONBuf_slice_bounds (enc : Encoder) (m : Message) (buf : Bytes) :
    (∀ F, jsonMarshalMessage enc m = .ok F →
      2 ≤ F.length ∧ slice F 0 ((F.length : Int) - 1) = some F.dropLast) ∧
    (∀ e, jsonMarshalMap enc m.Extra = .ok e →
      2 ≤ e.length ∧ slice e 1 ((e.length : Int) - 1) = some e.tail.dropLast) ∧
    (2 ≤ m.RawExtra.length →
      slice m.RawExtra 1 ((m.RawExtra.length : Int) - 1) = some m.RawExtra.tail.dropLast) ∧
    (m.RawExtra.length = 1 →
      slice m.RawExtra 1 ((m.RawExtra.length : Int) - 1) = none) ∧
    (m.RawExtra.length ≠ 1 → (MarshalJSONBuf enc m buf).2 ≠ some .sliceBounds) ∧
    ((MarshalJSONBuf enc m buf).2 = some .sliceBounds ↔
      m.RawExtra.length = 1 ∧ (∃ F, jsonMarshalMessage enc m = .ok F) ∧
        ∃ E, extraJSON enc m = .ok E) := by
  have hiff : (MarshalJSONBuf enc m buf).2 = some .sliceBounds ↔
      m.RawExtra.length = 1 ∧ (∃ F, jsonMarshalMessage enc m = .ok F) ∧
        ∃ E, extraJSON enc m = .ok E := by
    rcases MarshalJSONBuf_cases enc m buf with
      ⟨err, h1, h⟩ | ⟨F', err, _, h2, h⟩ | ⟨F', E', h1, h2, h3, h⟩ | ⟨F', E', _, _, h3, h⟩
    · constructor
      · intro hp; rw [h] at hp; simp at hp
      · rintro ⟨_, ⟨F, hF⟩, _⟩
        rw [hF] at h1; exact Except.noConfusion h1
    · constructor
      · intro hp; rw [h] at hp; simp at hp
      · rintro ⟨_, _, ⟨E, hE⟩⟩
        rw [hE] at h2; exact Except.noConfusion h2
    · exact ⟨fun _ => ⟨h3, ⟨F', h1⟩, ⟨E', h2⟩⟩, fun _ => h⟩
    · constructor
      · intro hp; rw [h] at hp; simp at hp
      · rintro ⟨h1, _, _⟩
        exact absurd h1 h3
  refine ⟨?_, ?_, slice_tail_dropLast _, slice_of_length_one _, ?_, hiff⟩
  · intro F hF
    have h2 := (jsonMarshalMessage_length enc m F hF).1
    exact ⟨h2, slice_dropLast F (by omega)⟩
  · intro e he
    have h2 := jsonMarshalMap_length enc _ e he
    exact ⟨h2, slice_tail_dropLast e h2⟩
  · intro hne hp
    exact hne (hiff.1 hp).1

/-- A witness of C20: a record whose `RawExtra` is one opening brace makes
`MarshalJSONBuf` panic, and the record with the two-byte `RawExtra` does
not. -/
theorem MarshalJSONBuf_slice_bounds_witness :
    (MarshalJSONBuf sampleEncoder sampleRecordOneByte []).2 = some .sliceBounds ∧
    (MarshalJSONBuf sampleEncoder sampleRecord []).2 ≠ some .sliceBounds :=
  ⟨(MarshalJSONBuf_slice_bounds sampleEncoder sampleRecordOneByte []).2.2.2.2.2.2
      ⟨by decide, ⟨_, rfl⟩, ⟨_, rfl⟩⟩,
   (MarshalJSONBuf_slice_bounds sampleEncoder sampleRecord []).2.2.2.2.1 (by decide)⟩

/-! ## The caller -/

theorem startsWith_iff (s p : Bytes) : startsWith s p = true ↔ ∃ b, s = p ++ b := by
  induction p generalizing s with
  | nil => cases s <;> simp [startsWith]
  | cons x p ih =>
    cases s with
    | nil => simp [startsWith]
    | cons a s =>
      simp only [startsWith, Bool.and_eq_true, beq_iff_eq, ih, List.cons_append, List.cons.injEq]
      constructor
      · rintro ⟨rfl, b, rfl⟩
        exact ⟨b, rfl, rfl⟩
      · rintro ⟨b, rfl, rfl⟩
        exact ⟨rfl, b, rfl⟩

theorem Contains_iff (s substr : Bytes) :
    Contains s substr = true ↔ ∃ a b, s = a ++ substr ++ b := by
  induction s with
  | nil =>
    simp only [Contains, startsWith_iff]
    constructor
    · rintro ⟨b, hb⟩
      exact ⟨[], b, by simpa using hb⟩
    · rintro ⟨a, b, hab⟩
      have h1 : a = [] ∧ substr = [] ∧ b = [] := by
        simpa [List.append_eq_nil, and_assoc] using hab.symm
      exact ⟨[], by simp [h1.2.1]⟩
  | cons x s ih =>
    simp only [Contains, Bool.or_eq_true, startsWith_iff, ih]
    constructor
    · rintro (⟨b, hb⟩ | ⟨a, b, hab⟩)
      · exact ⟨[], b, by simpa using hb⟩
      · exact ⟨x :: a, b, by simp [hab]⟩
    · rintro ⟨a, b, hab⟩
      cases a with
      | nil => exact Or.inl ⟨b, by simpa using hab⟩
      | cons y a =>
        simp only [List.cons_append, List.cons.injEq] at hab
        exact Or.inr ⟨a, b, hab.2⟩

theorem getCallerLoop_eq (stack : List Frame) (suffixesToIgnore : List Bytes) :
    ∀ n callDepth, stack.length - callDepth = n →
      getCallerLoop stack suffixesToIgnore callDepth =
        getCallerFrom suffixesToIgnore (stack.drop callDepth) := by
  intro n
  induction n with
  | zero =>
    intro callDepth h
    have hge : stack.length ≤ callDepth := by omega
    have hnone : runtimeCaller stack callDepth = none := List.get?_eq_none.mpr hge
    rw [getCallerLoop]
    split
    · rw [List.drop_eq_nil_of_le hge]; rfl
    · rename_i fr hfr
      rw [hnone] at hfr
      exact Option.noConfusion hfr
  | succ n ih =>
    intro callDepth h
    have hlt : callDepth < stack.length := by omega
    have hsome : runtimeCaller stack callDepth = some (stack.get ⟨callDepth, hlt⟩) :=
      List.get?_eq_get hlt
    have hdrop : stack.drop callDepth =
        stack.get ⟨callDepth, hlt⟩ :: stack.drop (callDepth + 1) :=
      (List.getElem_cons_drop stack callDepth hlt).symm
    rw [getCallerLoop]
    split
    · rename_i hnone
      rw [hsome] at hnone
      exact Option.noConfusion hnone
    · rename_i fr hfr
      rw [hsome] at hfr
      cases hfr
      rw [hdrop, getCallerFrom, ih (callDepth + 1) (by omega)]

theorem getCallerFrom_spec (suffixesToIgnore : List Bytes) (frames : List Frame) :
    (∃ i fr, frames.get? i = some fr ∧
      suffixesToIgnore.any (fun s => Contains fr.file s) = false ∧
      (∀ j fr', j < i → frames.get? j = some fr' →
        suffixesToIgnore.any (fun s => Contains fr'.file s) = true) ∧
      getCallerFrom suffixesToIgnore frames = (fr.file, fr.line)) ∨
    ((∀ j fr', frames.get? j = some fr' →
        suffixesToIgnore.any (fun s => Contains fr'.file s) = true) ∧
      getCallerFrom suffixesToIgnore frames = (ascii "???", 0)) := by
  induction frames with
  | nil =>
    right
    exact ⟨by intro j fr' h; simp at h, rfl⟩
  | cons fr rest ih =>
    by_cases hig : suffixesToIgnore.any (fun s => Contains fr.file s) = true
    · have hstep : getCallerFrom suffixesToIgnore (fr :: rest) =
          getCallerFrom suffixesToIgnore rest := by
        simp only [getCallerFrom, hig, if_true]
      rcases ih with ⟨i, fr0, h1, h2, h3, h4⟩ | ⟨h1, h2⟩
      · left
        refine ⟨i + 1, fr0, by simpa using h1, h2, ?_, by rw [hstep, h4]⟩
        intro j fr' hj hget
        cases j with
        | zero =>
          simp only [List.get?_cons_zero, Option.some.injEq] at hget
          subst hget
          exact hig
        | succ j => exact h3 j fr' (by omega) (by simpa using hget)
      · right
        refine ⟨?_, by rw [hstep, h2]⟩
        intro j fr' hget
        cases j with
        | zero =>
          simp only [List.get?_cons_zero, Option.some.injEq] at hget
          subst hget
          exact hig
        | succ j => exact h1 j fr' (by simpa using hget)
    · left
      have hfalse : suffixesToIgnore.any (fun s => Contains fr.file s) = false := by
        simpa using hig
      refine ⟨0, fr, rfl, hfalse, ?_, ?_⟩
      · intro j fr' hj; omega
      · simp only [getCallerFrom, hfalse]
        rfl

/-- C14: on a call stack that is a finite list of frames, the loop of
`getCaller` ends, for every depth and every list of fragments, and `getCaller`
returns either the file and line of the first frame, from the depth after its
own, whose file holds none of the fragments, every frame before it holding
one, or the sentinel `???` and 0 when every frame from there on holds a
fragment (or there is none).  `Contains` is the substring test. -/
theorem getCaller_first_frame (stack : List Frame) (callDepth : Nat)
    (suffixesToIgnore : List Bytes) :
    getCaller stack callDepth suffixesToIgnore =
      getCallerLoop stack suffixesToIgnore (callDepth + 1) ∧
    ((∃ i fr, callDepth + 1 ≤ i ∧ runtimeCaller stack i = some fr ∧
        (∀ s, s ∈ suffixesToIgnore → Contains fr.file s = false) ∧
        (∀ j fr', callDepth + 1 ≤ j → j < i → runtimeCaller stack j = some fr' →
          ∃ s, s ∈ suffixesToIgnore ∧ Contains fr'.file s = true) ∧
        getCaller stack callDepth suffixesToIgnore = (fr.file, fr.line)) ∨
     ((∀ j fr', callDepth + 1 ≤ j → runtimeCaller stack j = some fr' →
          ∃ s, s ∈ suffixesToIgnore ∧ Contains fr'.file s = true) ∧
        getCaller stack callDepth suffixesToIgnore = (ascii "???", 0))) ∧
    (∀ s substr : Bytes, Contains s substr = true ↔ ∃ a b, s = a ++ substr ++ b) := by
  refine ⟨(getCallerLoop_eq stack suffixesToIgnore _ (callDepth + 1) rfl).symm, ?_,
    Contains_iff⟩
  have hget : ∀ j, (stack.drop (callDepth + 1)).get? j = runtimeCaller stack (callDepth + 1 + j) := by
    intro j
    simp [runtimeCaller, List.getElem?_drop]
  rcases getCallerFrom_spec suffixesToIgnore (stack.drop (callDepth + 1)) with
    ⟨i, fr, h1, h2, h3, h4⟩ | ⟨h1, h2⟩
  · left
    refine ⟨callDepth + 1 + i, fr, by omega, by rw [← hget]; exact h1, ?_, ?_, h4⟩
    · intro s hs
      have := List.any_eq_false.mp h2 s hs
      simpa using this
    · intro j fr' hj1 hj2 hj
      have e : j = callDepth + 1 + (j - (callDepth + 1)) := by omega
      rw [e, ← hget] at hj
      have := h3 (j - (callDepth + 1)) fr' (by omega) hj
      obtain ⟨s, hs, hc⟩ := List.any_eq_true.mp this
      exact ⟨s, hs, hc⟩
  · right
    refine ⟨?_, h2⟩
    intro j fr' hj1 hj
    have e : j = callDepth + 1 + (j - (callDepth + 1)) := by omega
    rw [e, ← hget] at hj
    have := h1 (j - (callDepth + 1)) fr' hj
    obtain ⟨s, hs, hc⟩ := List.any_eq_true.mp this
    exact ⟨s, hs, hc⟩

/-- A witness of C14: from `Format` on the sample stack, `getCaller` skips the
frame of logrus and returns the frame of the application; on a stack that ends
with the frame of logrus it returns the sentinel. -/
theorem getCaller_first_frame_witness :
    getCallerLoop sampleStack
        [ascii "/pkg/log/log.go", ascii "/pkg/io/multi.go", ascii "/sirupsen/logrus/"] 3 =
      (ascii "/app/main.go", 12) ∧
    getCallerLoop (sampleStack.take 4)
        [ascii "/pkg/log/log.go", ascii "/pkg/io/multi.go", ascii "/sirupsen/logrus/"] 3 =
      (ascii "???", 0) :=
  ⟨((getCaller_first_frame sampleStack 2
      [ascii "/pkg/log/log.go", ascii "/pkg/io/multi.go", ascii "/sirupsen/logrus/"]).1).symm.trans
      (by decide),
   ((getCaller_first_frame (sampleStack.take 4) 2
      [ascii "/pkg/log/log.go", ascii "/pkg/io/multi.go", ascii "/sirupsen/logrus/"]).1).symm.trans
      (by decide)⟩

/-! ## The buffer behind the returned bytes -/

theorem newBuffer_lt (p : PoolState) (hp : ∀ i, i ∈ p.free → i < p.buffers.length) :
    (newBuffer p).1 < (newBuffer p).2.buffers.length := by
  unfold newBuffer
  cases hfree : p.free with
  | nil => simp
  | cons id rest =>
    have := hp id (by rw [hfree]; exact List.mem_cons_self _ _)
    simpa using this

theorem FormatPooled_ok (f : Formatter) (enc : Encoder) (stack : List Frame) (entry : Entry)
    (p : PoolState) (id : Nat) (out : Bytes)
    (h : (FormatPooled f enc stack entry p).1 = .ok (id, out)) :
    id = (newBuffer p).1 ∧
    MarshalJSONBuf enc (Format_message f stack entry) [] = (out, none) ∧
    (FormatPooled f enc stack entry p).2 =
      bufPoolPut { (newBuffer p).2 with
        buffers := (newBuffer p).2.buffers.set (newBuffer p).1 out } (newBuffer p).1 := by
  unfold FormatPooled at h ⊢
  cases hr : MarshalJSONBuf enc (Format_message f stack entry) [] with
  | mk b r =>
    cases r with
    | some e => simp [hr] at h
    | none =>
      simp only [hr, Except.ok.injEq, Prod.mk.injEq] at h
      obtain ⟨h1, h2⟩ := h
      subst h1
      subst h2
      exact ⟨rfl, rfl, rfl⟩

/-- C12, the failing case: when `Format` returns bytes, the buffer behind
them is already back in the pool; the next call of `Format` takes that very
buffer, and when it returns the buffer holds the bytes of the second call in
place of those of the first. -/
theorem Format_buffer_back_in_pool (f : Formatter) (enc : Encoder) (stack : List Frame)
    (e1 e2 : Entry) (p : PoolState) (id1 id2 : Nat) (out1 out2 : Bytes)
    (hp : ∀ i, i ∈ p.free → i < p.buffers.length)
    (h1 : (FormatPooled f enc stack e1 p).1 = .ok (id1, out1))
    (h2 : (FormatPooled f enc stack e2 (FormatPooled f enc stack e1 p).2).1 = .ok (id2, out2)) :
    Format f enc stack e1 = .ok out1 ∧
    id1 ∈ (FormatPooled f enc stack e1 p).2.free ∧
    (FormatPooled f enc stack e1 p).2.buffers.get? id1 = some out1 ∧
    id2 = id1 ∧
    (FormatPooled f enc stack e2 (FormatPooled f enc stack e1 p).2).2.buffers.get? id1 =
      some out2 := by
  obtain ⟨hid1, hm1, hs1⟩ := FormatPooled_ok f enc stack e1 p id1 out1 h1
  obtain ⟨hid2, _, hs2⟩ := FormatPooled_ok f enc stack e2 _ id2 out2 h2
  have hlt := newBuffer_lt p hp
  have hnext : newBuffer (FormatPooled f enc stack e1 p).2 =
      ((newBuffer p).1,
        { buffers := (((newBuffer p).2.buffers.set (newBuffer p).1 out1).set (newBuffer p).1 []),
          free := (newBuffer p).2.free }) := by
    rw [hs1]
    rfl
  refine ⟨?_, ?_, ?_, ?_, ?_⟩
  · simp only [Format, hm1]
  · rw [hs1, hid1]
    exact List.mem_cons_self _ _
  · rw [hs1, hid1]
    simp only [bufPoolPut, List.get?_eq_getElem?]
    rw [List.getElem?_set_self hlt]
  · rw [hid2, hid1, hnext]
  · rw [hs2, hnext, hid1]
    simp only [bufPoolPut, List.get?_eq_getElem?]
    rw [List.getElem?_set_self (by simpa using hlt)]

/-- The failing case of C12 on two events with the messages `a` and `b`,
from an empty pool: both calls use the buffer 0, and after the second call
that buffer holds the bytes of the second call, which differ from those the
first call returned. -/
theorem Format_buffer_back_in_pool_witness :
    Format sampleFormatter sampleEncoder sampleStack ⟨ascii "a", InfoLevel, [], 0⟩ =
      .ok (ascii "\x7b\"version\":\"1.1\",\"host\":\"h\",\"short_message\":\"a\",\"timestamp\":0,\"level\":6,\"_facility\":\"application-name\",\"_severity\":\"info\"\x7d\n") ∧
    0 ∈ (FormatPooled sampleFormatter sampleEncoder sampleStack ⟨ascii "a", InfoLevel, [], 0⟩
      ⟨[], []⟩).2.free ∧
    (FormatPooled sampleFormatter sampleEncoder sampleStack ⟨ascii "b", InfoLevel, [], 0⟩
      (FormatPooled sampleFormatter sampleEncoder sampleStack ⟨ascii "a", InfoLevel, [], 0⟩
        ⟨[], []⟩).2).2.buffers.get? 0 =
      some (ascii "\x7b\"version\":\"1.1\",\"host\":\"h\",\"short_message\":\"b\",\"timestamp\":0,\"level\":6,\"_facility\":\"application-name\",\"_severity\":\"info\"\x7d\n") :=
  ⟨(Format_buffer_back_in_pool sampleFormatter sampleEncoder sampleStack
      ⟨ascii "a", InfoLevel, [], 0⟩ ⟨ascii "b", InfoLevel, [], 0⟩ ⟨[], []⟩ 0 0
      (ascii "\x7b\"version\":\"1.1\",\"host\":\"h\",\"short_message\":\"a\",\"timestamp\":0,\"level\":6,\"_facility\":\"application-name\",\"_severity\":\"info\"\x7d\n")
      (ascii "\x7b\"version\":\"1.1\",\"host\":\"h\",\"short_message\":\"b\",\"timestamp\":0,\"level\":6,\"_facility\":\"application-name\",\"_severity\":\"info\"\x7d\n")
      (by decide) rfl rfl).1,
   (Format_buffer_back_in_pool sampleFormatter sampleEncoder sampleStack
      ⟨ascii "a", InfoLevel, [], 0⟩ ⟨ascii "b", InfoLevel, [], 0⟩ ⟨[], []⟩ 0 0
      (ascii "\x7b\"version\":\"1.1\",\"host\":\"h\",\"short_message\":\"a\",\"timestamp\":0,\"level\":6,\"_facility\":\"application-name\",\"_severity\":\"info\"\x7d\n")
      (ascii "\x7b\"version\":\"1.1\",\"host\":\"h\",\"short_message\":\"b\",\"timestamp\":0,\"level\":6,\"_facility\":\"application-name\",\"_severity\":\"info\"\x7d\n")
      (by decide) rfl rfl).2.1,
   (Format_buffer_back_in_pool sampleFormatter sampleEncoder sampleStack
      ⟨ascii "a", InfoLevel, [], 0⟩ ⟨ascii "b", InfoLevel, [], 0⟩ ⟨[], []⟩ 0 0
      (ascii "\x7b\"version\":\"1.1\",\"host\":\"h\",\"short_message\":\"a\",\"timestamp\":0,\"level\":6,\"_facility\":\"application-name\",\"_severity\":\"info\"\x7d\n")
      (ascii "\x7b\"version\":\"1.1\",\"host\":\"h\",\"short_message\":\"b\",\"timestamp\":0,\"level\":6,\"_facility\":\"application-name\",\"_severity\":\"info\"\x7d\n")
      (by decide) rfl rfl).2.2.2.2⟩

end GelfFormatter
